import Mathlib

/-!
Verification development for the mem-cli indexing and retrieval core.

The definitions below are a shallow embedding of the TypeScript source:

* `src/core/index.ts`  — chunker, embedding cache pipeline, `indexFile`,
  `indexNeedsUpdate`, `ensureIndexUpToDate`, `reindexWorkspaceUnlocked`;
* `src/core/search.ts` — `searchVector` with its in-process fallback;
* `src/core/lock.ts`   — the lock wait loop and `isPidAlive`;
* `src/core/daemon-server.ts` — the per-request version handshake;
* `src/core/storage.ts` / `src/core/layout.ts` — `listMemoryFiles` and the
  long-memory candidate paths.

JavaScript strings are modelled as `List Char` (one element per UTF-16 unit),
JavaScript numbers used as integral counters as `Nat`/`Int`, and JavaScript
doubles carried opaquely (embedding coordinates, scores) as `Float`.  SHA-256
digests (`sha256Hex`, `hashFile`, `buildChunkId`) are opaque to the code, so
they are passed in as function parameters.  Fallible operations return
`Except`, where the error value carries the database state visible after the
failure.
-/

namespace MemCli

/-- Chunking configuration, after `resolveChunkingFromSettings` has clamped
`tokens ≥ 1`, `overlap ∈ [0, tokens-1]`, `minChars ≥ 1`, `charsPerToken ≥ 1`.
All fields are integers after the source's `Math.floor`. -/
structure ChunkingConfig where
  tokens : Nat
  overlap : Nat
  minChars : Nat
  charsPerToken : Nat
deriving DecidableEq

/-- `maxChars = Math.max(minChars, tokens * charsPerToken)` in `chunkLinesByChars`. -/
def maxCharsOf (c : ChunkingConfig) : Nat := max c.minChars (c.tokens * c.charsPerToken)

/-- `overlapChars = Math.max(0, overlap * charsPerToken)`; nonnegative by typing. -/
def overlapCharsOf (c : ChunkingConfig) : Nat := c.overlap * c.charsPerToken

/-- A chunk produced by the chunker: `{ content, lineStart, lineEnd, hash }`
with `hash = sha256Hex(content)` supplied by the hash parameter. -/
structure MemoryChunk where
  content : List Char
  lineStart : Nat
  lineEnd : Nat
  hash : String
deriving DecidableEq

/-- `content.split("\n")` on a JavaScript string: the empty string splits to
`[""]`, and every `\n` separates (possibly empty) line fragments. -/
def splitLines : List Char → List (List Char)
  | [] => [[]]
  | c :: rest =>
    if c = '\n' then [] :: splitLines rest
    else
      match splitLines rest with
      | [] => [[c]]
      | l :: ls => (c :: l) :: ls

/-- The inner slicing loop of `chunkLinesByChars` for a non-empty line:
`for (start = 0; start < line.length; start += maxChars) push(slice(start, start+maxChars))`.
The loop runs at most `line.length` times when `maxChars ≥ 1` (resolved
configurations guarantee `maxChars ≥ minChars ≥ 1`), so the recursion is
bounded by a fuel instantiated with `line.length` below; the fuel-exhausted
branch is unreachable. -/
def lineSegmentsGo (maxChars : Nat) : Nat → List Char → List (List Char)
  | _, [] => []
  | 0, line => [line]
  | fuel + 1, line => line.take maxChars :: lineSegmentsGo maxChars fuel (line.drop maxChars)

/-- Segments of one line: an empty line contributes a single empty segment
(the `segments.push("")` branch), a non-empty line is sliced by `maxChars`. -/
def lineSegments (maxChars : Nat) (line : List Char) : List (List Char) :=
  if line = [] then [[]] else lineSegmentsGo maxChars line.length line

/-- An entry of the chunker's `current` buffer: a line segment tagged with its
1-based source line number. -/
structure ChunkEntry where
  line : List Char
  lineNo : Nat
deriving DecidableEq

/-- The size a segment contributes to `currentChars`: `line.length + 1`
(the reconstructed newline). -/
def entrySize (e : ChunkEntry) : Nat := e.line.length + 1

/-- Total `currentChars` accounted for a buffer. -/
def entriesSize (l : List ChunkEntry) : Nat := (l.map entrySize).sum

/-- The chunker's mutable state: emitted chunks, the `current` buffer, and
`currentChars`. -/
structure ChunkAccum where
  chunks : List MemoryChunk
  current : List ChunkEntry
  currentChars : Nat
deriving DecidableEq

/-- `current.map(e => e.line).join("\n")`. -/
def joinEntryLines (l : List ChunkEntry) : List Char :=
  List.intercalate ['\n'] (l.map (·.line))

/-- The chunker's `flush()`: emits the current buffer as one chunk (no-op on an
empty buffer), recording the first and last line numbers and the content hash. -/
def flushChunks (sha256Hex : List Char → String) (st : ChunkAccum) : ChunkAccum :=
  match st.current with
  | [] => st
  | first :: rest =>
    let text := joinEntryLines (first :: rest)
    { st with
      chunks := st.chunks ++
        [⟨text, first.lineNo, ((first :: rest).getLast (List.cons_ne_nil _ _)).lineNo,
          sha256Hex text⟩] }

/-- The backwards scan of `carryOverlap`: walking the buffer from its end,
keep entries until the accumulated size first reaches the overlap budget.
The argument list is the reversed buffer. -/
def takeOverlapRev (overlapChars : Nat) : List ChunkEntry → List ChunkEntry
  | [] => []
  | e :: rest =>
    if overlapChars ≤ entrySize e then [e]
    else e :: takeOverlapRev (overlapChars - entrySize e) rest

/-- The chunker's `carryOverlap()`: reset the buffer, or keep the smallest
suffix whose size reaches `overlapChars` as the next chunk's prefix. -/
def carryOverlap (overlapChars : Nat) (st : ChunkAccum) : ChunkAccum :=
  if overlapChars = 0 ∨ st.current = [] then { st with current := [], currentChars := 0 }
  else
    let kept := (takeOverlapRev overlapChars st.current.reverse).reverse
    { st with current := kept, currentChars := entriesSize kept }

/-- One iteration of the segment loop: flush-and-carry when adding the segment
would overflow `maxChars` and the buffer is non-empty, then append the segment. -/
def pushSegment (sha256Hex : List Char → String) (maxChars overlapChars : Nat)
    (st : ChunkAccum) (seg : ChunkEntry) : ChunkAccum :=
  let lineSize := entrySize seg
  let st' :=
    if maxChars < st.currentChars + lineSize ∧ st.current ≠ [] then
      carryOverlap overlapChars (flushChunks sha256Hex st)
    else st
  { st' with current := st'.current ++ [seg], currentChars := st'.currentChars + lineSize }

/-- All segments of all lines in order, tagged with their source line numbers
(`baseLineNo + index`, every segment of a sliced line keeps its line number). -/
def segmentEntries (maxChars baseLineNo : Nat) (lines : List (List Char)) : List ChunkEntry :=
  lines.enum.flatMap fun p => (lineSegments maxChars p.2).map fun s => ⟨s, baseLineNo + p.1⟩

/-- `chunkLinesByChars(lines, chunking, baseLineNo)` from `src/core/index.ts`. -/
def chunkLinesByChars (sha256Hex : List Char → String) (lines : List (List Char))
    (chunking : ChunkingConfig) (baseLineNo : Nat) : List MemoryChunk :=
  if lines = [] then []
  else
    let maxChars := maxCharsOf chunking
    let overlapChars := overlapCharsOf chunking
    let final := (segmentEntries maxChars baseLineNo lines).foldl
      (pushSegment sha256Hex maxChars overlapChars) ⟨[], [], 0⟩
    (flushChunks sha256Hex final).chunks

/-- `chunkMarkdown(content, chunking)`: split on newlines and chunk from line 1.
A JavaScript `split` never returns an empty array, so the `lines.length === 0`
guard is dead; it is kept for fidelity. -/
def chunkMarkdown (sha256Hex : List Char → String) (content : List Char)
    (chunking : ChunkingConfig) : List MemoryChunk :=
  let lines := splitLines content
  if lines = [] then [] else chunkLinesByChars sha256Hex lines chunking 1

/-- The whitespace characters removed by a JavaScript `String.prototype.trim`
that occur in this code base's data (ASCII whitespace plus NBSP and BOM). -/
def isJsSpace (c : Char) : Bool :=
  c = ' ' ∨ c = '\t' ∨ c = '\n' ∨ c = '\r' ∨ c = '\x0b' ∨ c = '\x0c' ∨
    c = ' ' ∨ c = '﻿'

/-- `s.trim()` on the `List Char` model. -/
def jsTrim (l : List Char) : List Char :=
  ((l.dropWhile isJsSpace).reverse.dropWhile isJsSpace).reverse

/-- The sync engine's whitespace filter applied after chunking:
`.filter(chunk => chunk.content.trim().length > 0)` in `indexFile`. -/
def dropWhitespaceChunks (chunks : List MemoryChunk) : List MemoryChunk :=
  chunks.filter fun c => decide (0 < (jsTrim c.content).length)

/-- A chunk consisting of a single buffer entry. -/
def singleChunk (sha256Hex : List Char → String) (n : Nat) (s : List Char) : MemoryChunk :=
  ⟨s, n, n, sha256Hex s⟩

/-! ## Vector search (`src/core/search.ts`) -/

/-- A row of the `chunks` table as seen by `searchVector`.  The `embedding`
field carries the result of `parseEmbedding` on the stored JSON text: a parse
failure or a non-array yields `[]`. -/
structure SChunkRow where
  id : String
  file_path : String
  line_start : Nat
  line_end : Nat
  content : List Char
  embedding : List Float
  model : String

/-- The database state `searchVector` reads: the `chunks` table, the parallel
`chunks_vec` virtual table rows (present only if the table exists), whether
the `chunks_vec` table exists in `sqlite_master`, and whether
`loadSqliteVecExtension` plus the `vec_version()` probe succeed in this
process (`ensureVecExtension`). -/
structure SearchDb where
  chunks : List SChunkRow
  vecRows : List (String × List Float)
  hasVecTable : Bool
  vecExtensionOk : Bool

/-- A search hit as returned by `searchVector`. -/
structure SearchResult where
  id : String
  file_path : String
  line_start : Nat
  line_end : Nat
  snippet : List Char
  score : Float
  vectorScore : Float

/-- `s.trim()` on strings. -/
def jsTrimStr (s : String) : String := (jsTrim s.data).asString

/-- `cosineSimilaritySameLength(a, b)` from `src/core/search.ts`; only called
on equal-length vectors, so the element-wise loop is a `zip`. -/
def cosineSimilaritySameLength (a b : List Float) : Float :=
  if a.length = 0 ∨ b.length = 0 then 0
  else
    let dot := ((a.zip b).map fun p => p.1 * p.2).sum
    let normA := (a.map fun x => x * x).sum
    let normB := (b.map fun x => x * x).sum
    if normA == 0 || normB == 0 then 0
    else dot / (Float.sqrt normA * Float.sqrt normB)

/-- `truncateSnippet(text, maxChars)`. -/
def truncateSnippet (text : List Char) (maxChars : Nat) : List Char :=
  if text = [] then [] else if text.length ≤ maxChars then text else text.take maxChars

/-- The fallback scoring pass: `rows.map(...)` with the closure-captured
`warnedDimMismatch` flag.  Returns the scored rows in order together with the
number of dimension-mismatch warnings written to the error stream. -/
def scoreFallbackRows (queryVec : List Float) : List SChunkRow → Bool →
    List (SChunkRow × Float) × Nat
  | [], _ => ([], 0)
  | r :: rest, warned =>
    if r.embedding.length ≠ queryVec.length then
      let w := if warned then 0 else 1
      let out := scoreFallbackRows queryVec rest true
      ((r, (0 : Float)) :: out.1, w + out.2)
    else
      let out := scoreFallbackRows queryVec rest warned
      ((r, cosineSimilaritySameLength queryVec r.embedding) :: out.1, out.2)

/-- Builds a `SearchResult` from a row and a score (`score = vectorScore`). -/
def mkSearchResult (snippetMaxChars : Nat) (r : SChunkRow) (score : Float) : SearchResult :=
  ⟨r.id, r.file_path, r.line_start, r.line_end,
    truncateSnippet r.content snippetMaxChars, score, score⟩

/-- `searchVector(db, queryVec, limit, model, snippetMaxChars)`, returning the
hits together with the number of dimension-mismatch warnings emitted.
`dist` stands for the extension's `vec_distance_cosine`.  A model filter whose
trimmed value is empty is falsy in the source and produces the same SQL as an
absent one, which the `modelFilter` normalization mirrors.  The SQL
`ORDER BY dist ASC` / descending score sort is modelled with a merge sort; the
claims do not depend on the tie order. -/
def searchVectorWithWarningCount (db : SearchDb) (dist : List Float → List Float → Float)
    (queryVec : List Float) (limit : Int) (model : Option String)
    (snippetMaxChars : Nat) : List SearchResult × Nat :=
  if queryVec.length = 0 ∨ limit ≤ 0 then ([], 0)
  else
    let trimmedModel := model.map jsTrimStr
    let modelFilter : Option String :=
      match trimmedModel with
      | none => none
      | some t => if t = "" then none else some t
    let vecReady := if db.hasVecTable then db.vecExtensionOk else false
    if db.hasVecTable && vecReady then
      let joined : List (SChunkRow × Float) := db.vecRows.filterMap fun rv =>
        (db.chunks.find? fun c => c.id == rv.1).map fun c => (c, dist rv.2 queryVec)
      let filtered : List (SChunkRow × Float) :=
        match modelFilter with
        | some t => joined.filter fun p => p.1.model == t
        | none => joined
      let sorted := filtered.mergeSort fun a b => a.2 ≤ b.2
      let top := sorted.take limit.toNat
      (top.map fun p => mkSearchResult snippetMaxChars p.1 (1 - p.2), 0)
    else
      let rows : List SChunkRow :=
        match modelFilter with
        | some t => db.chunks.filter fun c => c.model == t
        | none => db.chunks
      let scored := scoreFallbackRows queryVec rows false
      let finite := scored.1.filter fun p => p.2.isFinite
      let sorted := finite.mergeSort fun a b => b.2 ≤ a.2
      let top := sorted.take limit.toNat
      (top.map fun p => mkSearchResult snippetMaxChars p.1 p.2, scored.2)

/-- `searchVector` proper: the warning counter is a side channel. -/
def searchVector (db : SearchDb) (dist : List Float → List Float → Float)
    (queryVec : List Float) (limit : Int) (model : Option String)
    (snippetMaxChars : Nat) : List SearchResult :=
  (searchVectorWithWarningCount db dist queryVec limit model snippetMaxChars).1

/-! ## File lock (`src/core/lock.ts`) -/

/-- The parsed lock payload `{pid, createdAt}` (`parseLockInfo` returns `null`
on malformed JSON or wrong field types, modelled as `Option LockInfo`). -/
structure LockInfo where
  pid : Int
  createdAt : Int
deriving DecidableEq

/-- Outcome of the zero-signal probe `process.kill(pid, 0)`:
success, `ESRCH` (no such process), `EPERM` (exists, no permission), or some
other failure code. -/
inductive KillProbe where
  | ok
  | esrch
  | eperm
  | otherFail
deriving DecidableEq

/-- `CORRUPT_LOCK_GRACE_MS = 2000`. -/
def CORRUPT_LOCK_GRACE_MS : Int := 2000

/-- `isPidAlive(pid)`: non-positive (or non-finite) pids are dead without
probing; a probe failing with `ESRCH` is dead; every other outcome (success,
`EPERM`, other errors) counts as alive.  `probe` is the ambient
`process.kill(pid, 0)` behaviour. -/
def isPidAlive (probe : Int → KillProbe) (pid : Int) : Bool :=
  if pid ≤ 0 then false
  else
    match probe pid with
    | .esrch => false
    | _ => true

/-- One iteration of `waitForUnlock`'s loop body over an existing lock file,
deciding whether the waiter unlinks the file.  `info` is `readLockInfo`'s
result (parse failure or read failure give `none`); `ageMs` is
`safeFileAgeMs`'s result (`none` when `stat` fails). -/
def waitIterationUnlinks (probe : Int → KillProbe) (info : Option LockInfo)
    (ageMs : Option Int) : Bool :=
  match info with
  | none =>
    match ageMs with
    | some a => decide (CORRUPT_LOCK_GRACE_MS < a)
    | none => false
  | some i => ! isPidAlive probe i.pid

/-! ## Daemon request handshake (`src/core/daemon-server.ts`) -/

/-- `DAEMON_PROTOCOL_VERSION = 1` from `src/core/daemon-transport.ts`. -/
def DAEMON_PROTOCOL_VERSION : Int := 1

/-- The three request types of the daemon wire protocol. -/
inductive DaemonReqType where
  | ping
  | shutdown
  | run
deriving DecidableEq

/-- A well-typed daemon request (`clientVersion` is the empty string when the
field is unset, matching the JavaScript falsiness test). -/
structure DaemonRequest where
  reqType : DaemonReqType
  protocolVersion : Int
  clientVersion : String
  argv : List String
  stdinData : Option String

/-- The response fields the handshake claims constrain. -/
structure DaemonResponse where
  ok : Bool
  protocolVersion : Int
  daemonVersion : String
  restartRequired : Bool
  exitCode : Option Int

/-- What the daemon did while handling one request. -/
inductive DaemonAction where
  | noExec
  | didShutdown
  | didRun (argv : List String) (stdinData : Option String)
deriving DecidableEq

/-- The queued per-request handler of `serveDaemon` for a well-typed request:
protocol check first, then client-version check, then dispatch on the request
type.  `runner` abstracts `runCliInProcess`, returning an exit code. -/
def serveRequest (daemonVersion : String) (runner : List String → Option String → Int)
    (req : DaemonRequest) : DaemonResponse × DaemonAction :=
  if req.protocolVersion ≠ DAEMON_PROTOCOL_VERSION then
    (⟨false, DAEMON_PROTOCOL_VERSION, daemonVersion, true, some 1⟩, .noExec)
  else if req.clientVersion ≠ "" ∧ req.clientVersion ≠ daemonVersion then
    (⟨false, DAEMON_PROTOCOL_VERSION, daemonVersion, true, some 1⟩, .noExec)
  else
    match req.reqType with
    | .ping => (⟨true, DAEMON_PROTOCOL_VERSION, daemonVersion, false, none⟩, .noExec)
    | .shutdown => (⟨true, DAEMON_PROTOCOL_VERSION, daemonVersion, false, none⟩, .didShutdown)
    | .run =>
      let code := runner req.argv req.stdinData
      (⟨true, DAEMON_PROTOCOL_VERSION, daemonVersion, false, some code⟩,
        .didRun req.argv req.stdinData)

/-! ## Indexed file set (`src/core/storage.ts` `listMemoryFiles`,
`src/core/layout.ts` `longMemoryCandidatePaths`) -/

mutual

/-- A directory entry of a workspace: a regular file with content, or a
directory with its own listing.  (A dedicated listing type rather than
`List FsEntry` keeps all recursion below structural.) -/
inductive FsEntry where
  | file (name : String) (content : List Char)
  | dir (name : String) (children : FsListing)

/-- A directory listing in `readdir` order. -/
inductive FsListing where
  | nil
  | cons (e : FsEntry) (rest : FsListing)

end

/-- The name of an entry. -/
def FsEntry.name : FsEntry → String
  | .file n _ => n
  | .dir n _ => n

/-- `LONG_MEMORY_FILENAME_PRIMARY`; `longMemoryCandidatePaths` returns exactly
`[path.join(workspacePath, "MEMORY.md")]`, so the first existing candidate is
the only candidate. -/
def LONG_MEMORY_FILENAME_PRIMARY : String := "MEMORY.md"

/-- `MEMORY_DIRNAME`. -/
def MEMORY_DIRNAME : String := "memory"

/-- `s.endsWith(suffix)` on the character-list view of the strings. -/
def jsEndsWith (s suffix : String) : Bool := suffix.data.isSuffixOf s.data

/-- `fs.existsSync` for a direct child of a directory (true for files and
directories alike). -/
def entryExists : FsListing → String → Bool
  | .nil, _ => false
  | .cons e rest, n => e.name == n || entryExists rest n

/-- Resolves a direct child directory by name: the children of the first
entry named `n` when that entry is a directory.  (If the first entry named
`n` is a regular file, `readdirSync` would throw; that error case is modelled
as an empty walk.) -/
def findDirChildren : FsListing → String → Option FsListing
  | .nil, _ => none
  | .cons e rest, n =>
    if e.name == n then
      match e with
      | .dir _ cs => some cs
      | .file _ _ => none
    else findDirChildren rest n

mutual

/-- The contribution of one directory entry to `listMemoryFiles`' `walk`:
a file is collected when its name ends in `.md`, a directory is descended
into in place. -/
def walkMdEntry : FsEntry → List (List String)
  | .file n _ => if jsEndsWith n ".md" then [[n]] else []
  | .dir n cs => (walkMd cs).map (fun p => n :: p)

/-- The recursive `walk` of `listMemoryFiles` over a directory listing in
`readdir` order.  Paths are returned relative to the walked directory as
name lists. -/
def walkMd : FsListing → List (List String)
  | .nil => []
  | .cons e rest => walkMdEntry e ++ walkMd rest

end

/-- `listMemoryFiles(workspacePath)`: every existing long-memory candidate
(just `MEMORY.md`), followed by every `.md` file found by walking `memory/`.
Paths are workspace-relative name lists. -/
def listMemoryFiles (ws : FsListing) : List (List String) :=
  (if entryExists ws LONG_MEMORY_FILENAME_PRIMARY
    then [[LONG_MEMORY_FILENAME_PRIMARY]] else []) ++
  (match findDirChildren ws MEMORY_DIRNAME with
   | none => []
   | some cs => (walkMd cs).map (fun p => MEMORY_DIRNAME :: p))

mutual

/-- Whether the path `p` resolves to a regular file through this entry:
a one-component path names the file itself, a longer path descends through a
directory of the same head name. -/
def entryFileMatch : FsEntry → List String → Bool
  | .file m _, [n] => m == n
  | .dir m cs, n :: rest@(_ :: _) => m == n && isFileAt cs rest
  | _, _ => false

/-- Whether the path `p` resolves to a regular file under the listing. -/
def isFileAt : FsListing → List String → Bool
  | .nil, _ => false
  | .cons e rest, p => entryFileMatch e p || isFileAt rest p

end

/-- The names of a listing's entries. -/
def fsNames : FsListing → List String
  | .nil => []
  | .cons e rest => e.name :: fsNames rest

mutual

/-- Well-formedness of one entry: a directory's children have distinct names,
recursively. -/
def fsEntryWf : FsEntry → Bool
  | .file _ _ => true
  | .dir _ cs => decide (fsNames cs).Nodup && fsEntriesWf cs

/-- Well-formedness of every entry of a listing. -/
def fsEntriesWf : FsListing → Bool
  | .nil => true
  | .cons e rest => fsEntryWf e && fsEntriesWf rest

end

/-- A well-formed workspace: distinct sibling names at every level. -/
def fsWellFormed (ws : FsListing) : Bool := decide (fsNames ws).Nodup && fsEntriesWf ws

/-- Whether a path's last component names a Markdown file. -/
def mdSuffix (p : List String) : Bool :=
  match p.getLast? with
  | some ln => jsEndsWith ln ".md"
  | none => false

/-! ## Embedding cache and batch pipeline (`src/core/index.ts`) -/

/-- Embedding batching configuration after
`resolveEmbeddingBatchingFromSettings` (`batchMaxTokens ≥ 1`,
`cacheLookupBatchSize ≥ 1`).  `approxCharsPerToken` is a positive float in the
source (clamped to ≥ 0.01); it is modelled as a positive integer, which covers
the integral settings the program uses — the claims do not depend on the
estimate's exact value. -/
structure BatchingConfig where
  batchMaxTokens : Nat
  approxCharsPerToken : Nat
  cacheLookupBatchSize : Nat

/-- A row of the `embedding_cache` table.  `embedding` carries the parsed
value of the stored JSON text (rows are written with `JSON.stringify`, so the
parse is the stored list; a malformed row parses to `[]`). -/
structure CacheRow where
  model : String
  hash : String
  embedding : List Float
  dims : Nat
  updatedAt : Int

/-- An embedding provider: a stable model identifier and `embedBatch`,
modelled as a pure function from the batch's texts to its vectors. -/
structure ProviderModel where
  modelPath : String
  embedBatch : List (List Char) → List (List Float)

/-- `estimateEmbeddingTokens(text, approxCharsPerToken)`:
`Math.ceil(text.length / approxCharsPerToken)`, 0 for the empty text. -/
def estimateEmbeddingTokens (text : List Char) (approxCharsPerToken : Nat) : Nat :=
  if text = [] then 0 else (text.length + approxCharsPerToken - 1) / approxCharsPerToken

/-- The loop of `buildEmbeddingBatches`: flush the current batch when the next
chunk would exceed `batchMaxTokens`, give an oversized chunk a batch of its
own, otherwise append it to the current batch. -/
def buildEmbeddingBatchesGo (b : BatchingConfig) :
    List MemoryChunk → List (List MemoryChunk) → List MemoryChunk → Nat →
      List (List MemoryChunk)
  | [], batches, current, _ => if current = [] then batches else batches ++ [current]
  | c :: rest, batches, current, currentTokens =>
    let est := estimateEmbeddingTokens c.content b.approxCharsPerToken
    let flushNeeded := current ≠ [] ∧ b.batchMaxTokens < currentTokens + est
    let batches' := if flushNeeded then batches ++ [current] else batches
    let current' := if flushNeeded then ([] : List MemoryChunk) else current
    let tokens' := if flushNeeded then 0 else currentTokens
    if current' = [] ∧ b.batchMaxTokens < est then
      buildEmbeddingBatchesGo b rest (batches' ++ [[c]]) current' tokens'
    else
      buildEmbeddingBatchesGo b rest batches' (current' ++ [c]) (tokens' + est)

/-- `buildEmbeddingBatches(chunks, batching)`. -/
def buildEmbeddingBatches (chunks : List MemoryChunk) (b : BatchingConfig) :
    List (List MemoryChunk) :=
  buildEmbeddingBatchesGo b chunks [] [] 0

/-- The unique-hash pass of `loadEmbeddingCache`: drop empty hashes and
duplicates, preserving first-occurrence order (`seen` is the set so far). -/
def dedupHashesGo : List String → List String → List String
  | [], _ => []
  | hsh :: rest, seen =>
    if hsh = "" then dedupHashesGo rest seen
    else if hsh ∈ seen then dedupHashesGo rest seen
    else hsh :: dedupHashesGo rest (hsh :: seen)

/-- The deduplicated non-empty hashes, in order. -/
def dedupHashes (hashes : List String) : List String := dedupHashesGo hashes []

/-- The `for (start = 0; ...; start += batchSize) slice(...)` loop bounding
SQL parameter counts.  The loop runs at most `l.length` times when
`batchSize ≥ 1` (the setting is clamped to ≥ 1), so the recursion is bounded
by a fuel instantiated with `l.length` below; the fuel-exhausted branch and
the `batchSize = 0` guard are unreachable. -/
def sliceBatchesGo (batchSize : Nat) : Nat → List String → List (List String)
  | _, [] => []
  | 0, _ => []
  | fuel + 1, l =>
    if batchSize = 0 then []
    else l.take batchSize :: sliceBatchesGo batchSize fuel (l.drop batchSize)

/-- All the parameter-bounded slices of `l`. -/
def sliceBatches (batchSize : Nat) (l : List String) : List (List String) :=
  sliceBatchesGo batchSize l.length l

/-- One `SELECT hash, embedding ... WHERE model = ? AND hash IN (batch)`:
the matching cache rows in table order, parsed. -/
def cacheSelectBatch (cache : List CacheRow) (model : String) (batch : List String) :
    List (String × List Float) :=
  (cache.filter fun r => r.model == model && batch.contains r.hash).map
    fun r => (r.hash, r.embedding)

/-- `Map.get` over the association list accumulated by `out.set(...)`; the
primary key `(model, hash)` makes keys unique, so the first match is the
only one. -/
def cacheGet (m : List (String × List Float)) (hsh : String) : Option (List Float) :=
  (m.find? fun p => p.1 == hsh).map (·.2)

/-- `loadEmbeddingCache(db, model, hashes, batchSize)` as the association list
of `(hash, parsed embedding)` pairs it accumulates. -/
def loadEmbeddingCache (cache : List CacheRow) (model : String) (hashes : List String)
    (batchSize : Nat) : List (String × List Float) :=
  if model = "" then []
  else if hashes = [] then []
  else
    let unique := dedupHashes hashes
    if unique = [] then []
    else ((sliceBatches batchSize unique).map (cacheSelectBatch cache model)).flatten

/-- The cache hit for one chunk: `chunk.hash ? cached.get(chunk.hash) :
undefined`, kept only when non-empty (`hit && hit.length > 0`). -/
def cacheHitFor (cached : List (String × List Float)) (c : MemoryChunk) :
    Option (List Float) :=
  if c.hash = "" then none
  else
    match cacheGet cached c.hash with
    | some e => if e.isEmpty then none else some e
    | none => none

/-- One `INSERT ... ON CONFLICT(model, hash) DO UPDATE` of
`upsertEmbeddingCache`. -/
def upsertCacheOne (model : String) (now : Int) (cache : List CacheRow)
    (e : String × List Float) : List CacheRow :=
  if cache.any fun r => r.model == model && r.hash == e.1 then
    cache.map fun r =>
      if r.model == model && r.hash == e.1 then ⟨model, e.1, e.2, e.2.length, now⟩ else r
  else cache ++ [⟨model, e.1, e.2, e.2.length, now⟩]

/-- `upsertEmbeddingCache(db, model, entries)` (a no-op for an empty model). -/
def upsertEmbeddingCache (cache : List CacheRow) (model : String)
    (entries : List (String × List Float)) (now : Int) : List CacheRow :=
  if model = "" then cache else entries.foldl (upsertCacheOne model now) cache

/-- The per-batch result padding `batchEmbeddings[i] ?? []`. -/
def padBatchResult (n : Nat) (out : List (List Float)) : List (List Float) :=
  (List.range n).map fun i => out.getD i []

/-- The index-directed reassembly of `embedChunksWithCache`: position `i`
takes its cache hit when there is one, and otherwise consumes the next
freshly computed embedding (the `missing[cursor + i]` bookkeeping). -/
def stitchEmbeddings : List (Option (List Float)) → List (List Float) → List (List Float)
  | [], _ => []
  | some e :: rest, fresh => e :: stitchEmbeddings rest fresh
  | none :: rest, fresh => fresh.headD [] :: stitchEmbeddings rest fresh.tail

/-- The `cached` map of `embedChunksWithCache`. -/
def embedCacheLookup (cache : List CacheRow) (p : ProviderModel)
    (chunks : List MemoryChunk) (b : BatchingConfig) : List (String × List Float) :=
  loadEmbeddingCache cache p.modelPath (chunks.map (·.hash)) b.cacheLookupBatchSize

/-- The `embeddings` array right after the cache pass: position `i` holds the
non-empty cache hit for chunk `i` when there is one. -/
def embedHits (cache : List CacheRow) (p : ProviderModel) (chunks : List MemoryChunk)
    (b : BatchingConfig) : List (Option (List Float)) :=
  chunks.map (cacheHitFor (embedCacheLookup cache p chunks b))

/-- The `missing` chunks, in input order. -/
def embedMissing (cache : List CacheRow) (p : ProviderModel) (chunks : List MemoryChunk)
    (b : BatchingConfig) : List MemoryChunk :=
  chunks.filter fun c => (cacheHitFor (embedCacheLookup cache p chunks b) c).isNone

/-- The `embedBatch` calls: one list of ordered texts per batch of missing
chunks. -/
def embedCalls (cache : List CacheRow) (p : ProviderModel) (chunks : List MemoryChunk)
    (b : BatchingConfig) : List (List (List Char)) :=
  (buildEmbeddingBatches (embedMissing cache p chunks b) b).map
    fun batch => batch.map (·.content)

/-- The freshly computed embeddings in missing order, padded per batch
(`batchEmbeddings[i] ?? []`). -/
def embedFresh (cache : List CacheRow) (p : ProviderModel) (chunks : List MemoryChunk)
    (b : BatchingConfig) : List (List Float) :=
  ((buildEmbeddingBatches (embedMissing cache p chunks b) b).map
    fun batch => padBatchResult batch.length (p.embedBatch (batch.map (·.content)))).flatten

/-- `embedChunksWithCache(db, provider, chunks, batching)`: returns the
updated cache table, one embedding per chunk in order, and the list of
`embedBatch` calls (each call being the ordered list of texts sent to the
provider).  The source's local bindings `cached`, `missing`, `batches` are
the named definitions above. -/
def embedChunksWithCache (cache : List CacheRow) (p : ProviderModel)
    (chunks : List MemoryChunk) (b : BatchingConfig) (now : Int) :
    List CacheRow × List (List Float) × List (List (List Char)) :=
  if chunks = [] then (cache, [], [])
  else if embedMissing cache p chunks b = [] then
    (cache, (embedHits cache p chunks b).map (fun o => o.getD []), [])
  else
    let fresh := embedFresh cache p chunks b
    let toCache := ((embedMissing cache p chunks b).zip fresh).map fun q => (q.1.hash, q.2)
    (upsertEmbeddingCache cache p.modelPath toCache now,
      stitchEmbeddings (embedHits cache p chunks b) fresh,
      embedCalls cache p chunks b)

/-- A concrete cache for the C3 witness: one cached hash under model "m". -/
def c3wCache : List CacheRow := [⟨"m", "h1", [(1 : Float)], 1, 0⟩]

/-- A concrete provider for the C3 witness. -/
def c3wProv : ProviderModel := ⟨"m", fun _ => [[(2 : Float)]]⟩

/-- Two chunks for the C3 witness: the first's hash is cached. -/
def c3wChunks : List MemoryChunk := [⟨"a".data, 1, 1, "h1"⟩, ⟨"bb".data, 2, 2, "h2"⟩]

/-- Batching settings for the C3 witness. -/
def c3wB : BatchingConfig := ⟨8000, 1, 400⟩

/-! ## Index store and `indexFile` (`src/core/index.ts`) -/

/-- The `mem_index_meta_v3` JSON blob (absent fields are `none`; `dims` is
positive whenever set, `model` non-empty when written by `ensureVectorReady`). -/
structure IndexMeta where
  model : Option String
  dims : Option Nat
  vectorExtensionPath : Option String
  chunkTokens : Option Nat
  chunkOverlap : Option Nat
  chunkMinChars : Option Nat
  chunkCharsPerToken : Option Nat

/-- A row of the `files` table (`path` is the primary key). -/
structure FileRow where
  path : String
  hash : String
  mtime : Int
  size : Int

/-- A row of the `chunks` table (`id` is the primary key; `embedding` is the
parsed value of the stored JSON text). -/
structure ChunkRow where
  id : String
  file_path : String
  line_start : Nat
  line_end : Nat
  hash : String
  model : String
  content : List Char
  embedding : List Float
  updated_at : Int

/-- The `chunks_vec` virtual table: declared dimension and rows. -/
structure VecTable where
  dims : Nat
  rows : List (String × List Float)

/-- The index database state: metadata blob, `files`, `chunks`, the optional
`chunks_vec` table, and `embedding_cache`. -/
structure Db where
  meta : IndexMeta
  files : List FileRow
  chunks : List ChunkRow
  vec : Option VecTable
  cache : List CacheRow

/-- A file on disk as the sync engine reads it: workspace-relative POSIX
path, content, and `stat` results (`mtime` already floored to an integer). -/
structure DiskFile where
  path : String
  content : List Char
  mtime : Int
  size : Int

/-- The ambient state of one sync call: the files on disk (the result of
`listMemoryFiles`, as workspace-relative paths), the resolved chunking and
batching settings, the optional embedding provider, whether
`loadSqliteVecExtension` plus the `vec_version()` probe succeed in this
process, the resolved extension path, the process-global
`didPruneOrphanedVectors` flag, the clock, and the opaque hash functions
(`sha256Hex` for chunk text, SHA-256 of the file bytes for `hashFile`, and
the composite digest of `buildChunkId`). -/
structure SyncEnv where
  disk : List DiskFile
  chunking : ChunkingConfig
  batching : BatchingConfig
  provider : Option ProviderModel
  vecLoadable : Bool
  extensionPath : String
  didPruneOrphanedVectors : Bool
  now : Int
  sha256Hex : List Char → String
  hashFile : List Char → String
  buildChunkId : String → Nat → Nat → String → Nat → String

/-- `ensureVectorReady(db, modelPath, dims)`: returns the updated database
and whether the vector table is ready.  A failed extension load and a failed
`vec_version()` probe behave alike (metadata written, not ready), so both are
`vecLoadable = false`. -/
def ensureVectorReady (env : SyncEnv) (db : Db) (modelPath : String) (dims : Nat) :
    Db × Bool :=
  if dims = 0 then (db, false)
  else
    let previousModel := db.meta.model
    let previousDims := db.meta.dims
    let meta1 := { db.meta with model := some modelPath, dims := some dims }
    if env.vecLoadable = false then ({ db with meta := meta1 }, false)
    else
      let prevModelDiffers :=
        match previousModel with
        | some m => if m = "" then false else decide (m ≠ modelPath)
        | none => false
      let prevDimsDiffer :=
        match previousDims with
        | some d => if d = 0 then false else decide (d ≠ dims)
        | none => false
      let shouldDropExisting := db.vec.isSome && (prevModelDiffers || prevDimsDiffer)
      let vecAfterDrop := if shouldDropExisting then none else db.vec
      let vec2 :=
        match vecAfterDrop with
        | some t => some t
        | none => some (⟨dims, []⟩ : VecTable)
      let meta2 := { meta1 with vectorExtensionPath := some env.extensionPath }
      ({ db with meta := meta2, vec := vec2 }, true)

/-- The `files` upsert `INSERT ... ON CONFLICT(path) DO UPDATE`. -/
def upsertFileRow (files : List FileRow) (row : FileRow) : List FileRow :=
  if files.any fun r => r.path == row.path then
    files.map fun r => if r.path == row.path then row else r
  else files ++ [row]

/-- The insert loop of `indexFile`'s transaction: one chunk row per chunk in
order, plus a vector row for every non-empty embedding when the vector table
is ready.  A vector insert whose embedding length differs from the table's
declared dimension fails (vec0 rejects the blob), aborting the transaction
(`none`). -/
def txnInsertGo (env : SyncEnv) (relPath model : String) (vectorReady : Bool) :
    List (Nat × MemoryChunk × List Float) → List ChunkRow → Option VecTable →
      Option (List ChunkRow × Option VecTable)
  | [], acc, vec => some (acc, vec)
  | (i, c, emb) :: rest, acc, vec =>
    let cid := env.buildChunkId relPath c.lineStart c.lineEnd c.hash i
    let row : ChunkRow :=
      ⟨cid, relPath, c.lineStart, c.lineEnd, c.hash, model, c.content, emb, env.now⟩
    if vectorReady ∧ ¬ emb.isEmpty then
      match vec with
      | some t =>
        if emb.length = t.dims then
          txnInsertGo env relPath model vectorReady rest (acc ++ [row])
            (some { t with rows := t.rows ++ [(cid, emb)] })
        else none
      | none => none
    else txnInsertGo env relPath model vectorReady rest (acc ++ [row]) vec

/-- The pre-transaction phase of `indexFile`: hash the file, chunk it, drop
whitespace-only chunks, embed through the cache, derive `dims` from the first
non-empty embedding, and run `ensureVectorReady`.  Returns the database after
these effects together with the chunk list, the embeddings, the readiness
flag, and the model column value. -/
def indexFilePre (env : SyncEnv) (db : Db) (f : DiskFile) :
    Db × List MemoryChunk × List (List Float) × Bool × String :=
  let chunks := dropWhitespaceChunks (chunkMarkdown env.sha256Hex f.content env.chunking)
  match env.provider with
  | none => (db, chunks, [], false, "")
  | some p =>
    let r := embedChunksWithCache db.cache p chunks env.batching env.now
    let db1 := { db with cache := r.1 }
    let embeddings := r.2.1
    let dims :=
      match embeddings.find? fun e => ¬ e.isEmpty with
      | some sample => sample.length
      | none => 0
    let vr := ensureVectorReady env db1 p.modelPath dims
    (vr.1, chunks, embeddings, vr.2, p.modelPath)

/-- `indexFile(db, workspacePath, filePath, provider, chunking, batching)`:
pre-transaction effects, then a `BEGIN IMMEDIATE` transaction that deletes
the file's vector and chunk rows, inserts the new rows, and upserts the file
row; `COMMIT` on success.  On a statement error the transaction is rolled
back: the error value is the state at `BEGIN` (the pre-transaction effects —
cache upserts, metadata write, and any vector-table drop/recreate — are not
transactional). -/
def indexFile (env : SyncEnv) (db : Db) (f : DiskFile) : Except Db Db :=
  let relPath := f.path
  let fileHash := env.hashFile f.content
  let pre := indexFilePre env db f
  let db2 := pre.1
  let chunks := pre.2.1
  let embeddings := pre.2.2.1
  let vectorReady := pre.2.2.2.1
  let model := pre.2.2.2.2
  let oldIds := (db2.chunks.filter fun cr => cr.file_path == relPath).map (·.id)
  let vecAfterDelete :=
    if vectorReady then
      match db2.vec with
      | some t => some { t with rows := t.rows.filter fun rv => ¬ oldIds.contains rv.1 }
      | none => db2.vec
    else db2.vec
  let chunksAfterDelete := db2.chunks.filter fun cr => cr.file_path != relPath
  let items := chunks.enum.map fun q => (q.1, q.2, embeddings.getD q.1 [])
  match txnInsertGo env relPath model vectorReady items [] vecAfterDelete with
  | none => .error db2
  | some (newRows, vecFinal) =>
    .ok { db2 with
      chunks := chunksAfterDelete ++ newRows,
      vec := vecFinal,
      files := upsertFileRow db2.files ⟨relPath, fileHash, f.mtime, f.size⟩ }

/-! ## The transaction of indexFile -/

/-- The database carried by an `indexFile` result: the committed state on
success, the state at `BEGIN` (after the pre-transaction effects) on error. -/
def exVal : Except Db Db → Db
  | .ok d => d
  | .error d => d

/-- The float-free shape of the vector table: declared dims and row ids. -/
def vecShape (db : Db) : Option (Nat × List String) :=
  db.vec.map fun t => (t.dims, t.rows.map fun rv => rv.1)

/-- The chunk row the transaction of `indexFile` inserts for the enumerated
chunk `q = (i, chunk, embedding)`. -/
def chunkRowOf (env : SyncEnv) (relPath model : String)
    (q : Nat × MemoryChunk × List Float) : ChunkRow :=
  ⟨env.buildChunkId relPath q.2.1.lineStart q.2.1.lineEnd q.2.1.hash q.1,
   relPath, q.2.1.lineStart, q.2.1.lineEnd, q.2.1.hash, model, q.2.1.content,
   q.2.2, env.now⟩

/-- The enumerated chunk/embedding triples `indexFile` feeds to its insert
loop. -/
def builtItems (env : SyncEnv) (db : Db) (f : DiskFile) :
    List (Nat × MemoryChunk × List Float) :=
  ((indexFilePre env db f).2.1.enum).map fun q =>
    (q.1, q.2, (indexFilePre env db f).2.2.1.getD q.1 [])

def c2e3 : List Float := [1, 1, 1]

def c2e2 : List Float := [1, 1]

def c2env : SyncEnv :=
  { disk := [], chunking := ⟨1, 0, 1, 1⟩, batching := ⟨8000, 1, 400⟩,
    provider := some ⟨"m", fun _ => [c2e3, c2e2]⟩, vecLoadable := true,
    extensionPath := "/ext", didPruneOrphanedVectors := false, now := 9,
    sha256Hex := List.asString, hashFile := List.asString,
    buildChunkId := fun rp _ _ h i => rp ++ "|" ++ h ++ "|" ++ toString i }

def c2db : Db :=
  { meta := ⟨some "m", some 2, none, some 1, some 0, some 1, some 1⟩,
    files := [⟨"A.md", "old", 0, 0⟩],
    chunks := [⟨"a0", "A.md", 1, 1, "h", "m", "x".data, [0.5], 0⟩],
    vec := some ⟨2, [("a0", [0.5, 0.25])]⟩,
    cache := [] }

def c2file : DiskFile := ⟨"A.md", "a\nb".data, 5, 3⟩

def c2wEnv : SyncEnv := { c2env with provider := none }

/-! ### The sync engine: indexNeedsUpdate / ensureIndexUpToDate -/

/-- The `existing` map of the sync engine: `files` rows inserted in order
into a JS `Map` keyed by `path` (a later row with the same key overwrites an
earlier one), then looked up. -/
def existingGet (rows : List FileRow) (p : String) : Option FileRow :=
  rows.foldl (fun acc r => if r.path == p then some r else acc) none

/-- The `UPDATE files SET mtime = ?, size = ? WHERE path = ?` statement. -/
def touchFileRow (files : List FileRow) (p : String) (mtime size : Int) :
    List FileRow :=
  files.map fun q => if q.path == p then { q with mtime := mtime, size := size } else q

/-- The chunking-settings part of the metadata blob, as a tuple. -/
def chunkMeta (m : IndexMeta) :
    Option Nat × Option Nat × Option Nat × Option Nat :=
  (m.chunkTokens, m.chunkOverlap, m.chunkMinChars, m.chunkCharsPerToken)

/-- Negation of the chunk-drift test shared by `indexNeedsUpdate` and
`ensureIndexUpToDateUnlocked`: all four stored chunking parameters equal the
resolved settings (`undefined !== n` is true, hence the `some`). -/
def chunkingMetaMatches (m : IndexMeta) (c : ChunkingConfig) : Bool :=
  m.chunkTokens == some c.tokens && m.chunkOverlap == some c.overlap &&
    m.chunkMinChars == some c.minChars && m.chunkCharsPerToken == some c.charsPerToken

/-- The model-drift test `provider && (!meta.model || meta.model !==
provider.modelPath)`: with a provider, a missing or empty stored model (both
falsy) or a different stored model is a mismatch. -/
def providerModelMismatch (m : IndexMeta) : Option ProviderModel → Bool
  | none => false
  | some p =>
    match m.model with
    | none => true
    | some s => if s = "" then true else s != p.modelPath

/-- The per-file drift test of `indexNeedsUpdate`: no `files` row, or a
`mtime`/`size` change whose content hash differs from the stored hash. -/
def fileRecordDrifts (env : SyncEnv) (rows : List FileRow) (f : DiskFile) : Bool :=
  match existingGet rows f.path with
  | none => true
  | some r =>
    if r.mtime != f.mtime || r.size != f.size then
      env.hashFile f.content != r.hash
    else false

/-- `indexNeedsUpdate(db, workspacePath, provider)`: chunk-settings drift,
model drift, per-file drift against the `files` rows, or a `files` row whose
path is no longer on disk. -/
def indexNeedsUpdate (env : SyncEnv) (db : Db) : Bool :=
  if chunkingMetaMatches db.meta env.chunking = false then true
  else if providerModelMismatch db.meta env.provider = true then true
  else if (env.disk.any fun f => fileRecordDrifts env db.files f) = true then true
  else db.files.any fun r => !((env.disk.map DiskFile.path).contains r.path)

/-- One iteration of the file loop of `ensureIndexUpToDateUnlocked`, against
the `existing` snapshot taken before the loop: index a new file, index a
stat-drifted file whose hash changed, touch `mtime`/`size` when only the stat
drifted, else skip. -/
def syncFileStep (env : SyncEnv) (rows : List FileRow) (db : Db) (f : DiskFile) :
    Except Db Db :=
  match existingGet rows f.path with
  | none => indexFile env db f
  | some r =>
    if r.mtime != f.mtime || r.size != f.size then
      if env.hashFile f.content != r.hash then indexFile env db f
      else .ok { db with files := touchFileRow db.files f.path f.mtime f.size }
    else .ok db

/-- The file loop of `ensureIndexUpToDateUnlocked`; an `indexFile` error
aborts the call with the database state at the throw. -/
def syncFilesGo (env : SyncEnv) (rows : List FileRow) :
    List DiskFile → Db → Except Db Db
  | [], db => .ok db
  | f :: rest, db =>
    match syncFileStep env rows db f with
    | .ok db1 => syncFilesGo env rows rest db1
    | .error d => .error d

/-- The stale-row cleanup for one path: delete the path's vector rows (only
when the table exists and the extension is ready), its chunk rows, and its
file row. -/
def deleteFileEverywhere (vectorReady : Bool) (db : Db) (p : String) : Db :=
  let ids := (db.chunks.filter fun c => c.file_path == p).map fun c => c.id
  let vec1 :=
    match db.vec with
    | some t =>
      if vectorReady then
        some { t with rows := t.rows.filter fun rv => !ids.contains rv.1 }
      else some t
    | none => none
  { db with
    vec := vec1,
    chunks := db.chunks.filter fun c => c.file_path != p,
    files := db.files.filter fun r => r.path != p }

/-- The second loop of `ensureIndexUpToDateUnlocked`: every snapshot row
whose path is not on disk is cleaned up. -/
def deletePass (env : SyncEnv) (vectorReady : Bool) (rows : List FileRow)
    (db : Db) : Db :=
  rows.foldl
    (fun d r =>
      if (env.disk.map DiskFile.path).contains r.path then d
      else deleteFileEverywhere vectorReady d r.path)
    db

/-- `DELETE FROM chunks_vec WHERE id NOT IN (SELECT id FROM chunks)`. -/
def pruneOrphanedVectors (db : Db) : Db :=
  match db.vec with
  | some t =>
    { db with
      vec := some { t with
        rows := t.rows.filter fun rv => (db.chunks.map fun c => c.id).contains rv.1 } }
  | none => db

/-- The loop of `reindexWorkspaceUnlocked`: `indexFile` for every file on
disk, aborting on the first error. -/
def indexAllGo (env : SyncEnv) : List DiskFile → Db → Except Db Db
  | [], db => .ok db
  | f :: rest, db =>
    match indexFile env db f with
    | .ok d => indexAllGo env rest d
    | .error d => .error d

/-- `reindexWorkspaceUnlocked(db, workspacePath, options)`: write the
resolved chunking settings to the metadata (clearing `model`/`dims` when no
provider is configured), delete all chunks, drop the vector table — a drop
that fails because sqlite-vec cannot load throws when a provider is
configured and is swallowed otherwise — delete all file rows, and index
every file on disk. -/
def reindexWorkspaceUnlocked (env : SyncEnv) (db : Db) : Except Db Db :=
  let meta1 := { db.meta with
    chunkTokens := some env.chunking.tokens,
    chunkOverlap := some env.chunking.overlap,
    chunkMinChars := some env.chunking.minChars,
    chunkCharsPerToken := some env.chunking.charsPerToken }
  let meta2 :=
    match env.provider with
    | none => { meta1 with model := none, dims := none }
    | some _ => meta1
  let db1 := { db with meta := meta2, chunks := [] }
  match db1.vec with
  | none => indexAllGo env env.disk { db1 with files := [] }
  | some _ =>
    if env.vecLoadable then
      indexAllGo env env.disk { db1 with vec := none, files := [] }
    else
      match env.provider with
      | some _ => .error db1
      | none => indexAllGo env env.disk { db1 with files := [] }

/-- `ensureIndexUpToDateUnlocked(db, workspacePath, options)`: reindex on
chunk-settings or model drift; otherwise resolve vector readiness, prune
orphaned vectors once per process, sync every file on disk against the
`files` snapshot, and clean up rows for deleted files. -/
def ensureIndexUpToDateUnlocked (env : SyncEnv) (db : Db) : Except Db Db :=
  if chunkingMetaMatches db.meta env.chunking = false then
    reindexWorkspaceUnlocked env db
  else if providerModelMismatch db.meta env.provider = true then
    reindexWorkspaceUnlocked env db
  else
    let vectorExtensionReady := env.provider.isSome && db.vec.isSome && env.vecLoadable
    let db1 :=
      if vectorExtensionReady && !env.didPruneOrphanedVectors then
        pruneOrphanedVectors db
      else db
    let rows0 := db1.files
    match syncFilesGo env rows0 env.disk db1 with
    | .ok d2 => .ok (deletePass env vectorExtensionReady rows0 d2)
    | .error d => .error d

/-- `ensureIndexUpToDate(db, workspacePath, options)`: check
`indexNeedsUpdate`, return if clean, re-check under the lock (the state is
unchanged in a single-threaded trace), and run the unlocked sync. -/
def ensureIndexUpToDate (env : SyncEnv) (db : Db) : Except Db Db :=
  if indexNeedsUpdate env db = true then
    if indexNeedsUpdate env db = true then ensureIndexUpToDateUnlocked env db
    else .ok db
  else .ok db

def c1env : SyncEnv :=
  { disk := [], chunking := ⟨1, 0, 1, 1⟩, batching := ⟨8000, 1, 400⟩,
    provider := some ⟨"m", fun _ => []⟩, vecLoadable := false,
    extensionPath := "/ext", didPruneOrphanedVectors := false, now := 0,
    sha256Hex := List.asString, hashFile := List.asString,
    buildChunkId := fun rp _ _ h i => rp ++ "|" ++ h ++ "|" ++ toString i }

def c1db : Db :=
  { meta := ⟨none, none, none, none, none, none, none⟩,
    files := [], chunks := [], vec := none, cache := [] }

def c1wEnv : SyncEnv :=
  { disk := [⟨"MEMORY.md", "hi".data, 4, 2⟩], chunking := ⟨4, 1, 1, 1⟩,
    batching := ⟨8000, 1, 400⟩, provider := none, vecLoadable := false,
    extensionPath := "/ext", didPruneOrphanedVectors := false, now := 7,
    sha256Hex := List.asString, hashFile := List.asString,
    buildChunkId := fun rp _ _ h i => rp ++ "|" ++ h ++ "|" ++ toString i }

/-! ## Theorems -/

theorem splitLines_ne_nil (l : List Char) : splitLines l ≠ [] := by
  induction l with
  | nil => simp [splitLines]
  | cons c rest ih =>
    simp only [splitLines]
    split
    · simp
    · split
      · simp
      · simp

theorem splitLines_no_newline (l : List Char) (h : '\n' ∉ l) : splitLines l = [l] := by
  induction l with
  | nil => rfl
  | cons c rest ih =>
    have hc : ¬ c = '\n' := fun hc => h (hc ▸ List.mem_cons_self c rest)
    have hr : '\n' ∉ rest := fun hm => h (List.mem_cons_of_mem c hm)
    simp only [splitLines, if_neg hc, ih hr]

theorem lineSegmentsGo_nil (maxChars fuel : Nat) :
    lineSegmentsGo maxChars fuel [] = [] := by
  cases fuel <;> rfl

theorem lineSegmentsGo_ne_nil (maxChars fuel : Nat) (line : List Char)
    (hne : line ≠ []) : lineSegmentsGo maxChars fuel line ≠ [] := by
  cases fuel with
  | zero => cases line with
    | nil => exact absurd rfl hne
    | cons c cs => simp [lineSegmentsGo]
  | succ f => cases line with
    | nil => exact absurd rfl hne
    | cons c cs => simp [lineSegmentsGo]

theorem lineSegmentsGo_le (maxChars : Nat) (h0 : 0 < maxChars) :
    ∀ fuel (line : List Char), line.length ≤ fuel →
      ∀ s ∈ lineSegmentsGo maxChars fuel line, s.length ≤ maxChars := by
  intro fuel
  induction fuel with
  | zero =>
    intro line hf s hs
    cases line with
    | nil => simp [lineSegmentsGo_nil] at hs
    | cons c cs => simp at hf
  | succ f ih =>
    intro line hf s hs
    cases line with
    | nil => simp [lineSegmentsGo_nil] at hs
    | cons c cs =>
      simp only [lineSegmentsGo] at hs
      rcases List.mem_cons.mp hs with h1 | h2
      · subst h1
        simp [List.length_take]
      · refine ih _ ?_ s h2
        simp only [List.length_drop, List.length_cons] at *
        omega

theorem lineSegmentsGo_dropLast_full (maxChars : Nat) (h0 : 0 < maxChars) :
    ∀ fuel (line : List Char), line.length ≤ fuel →
      ∀ s ∈ (lineSegmentsGo maxChars fuel line).dropLast, s.length = maxChars := by
  intro fuel
  induction fuel with
  | zero =>
    intro line hf s hs
    cases line with
    | nil => simp [lineSegmentsGo_nil] at hs
    | cons c cs => simp at hf
  | succ f ih =>
    intro line hf s hs
    cases line with
    | nil => simp [lineSegmentsGo_nil] at hs
    | cons c cs =>
      simp only [lineSegmentsGo] at hs
      by_cases hle : (c :: cs).length ≤ maxChars
      · have hdrop : (c :: cs).drop maxChars = [] := List.drop_eq_nil_of_le hle
        rw [hdrop, lineSegmentsGo_nil] at hs
        simp at hs
      · push_neg at hle
        have hdne : (c :: cs).drop maxChars ≠ [] := by
          intro h
          have := List.drop_eq_nil_iff.mp h
          omega
        rw [List.dropLast_cons_of_ne_nil (lineSegmentsGo_ne_nil _ _ _ hdne)] at hs
        rcases List.mem_cons.mp hs with h1 | h2
        · subst h1
          simp only [List.length_take]
          omega
        · refine ih _ ?_ s h2
          simp only [List.length_drop, List.length_cons] at *
          omega

theorem lineSegmentsGo_two_le (maxChars fuel : Nat) (line : List Char)
    (_h0 : 0 < maxChars) (h : maxChars < line.length) (hf : line.length ≤ fuel) :
    2 ≤ (lineSegmentsGo maxChars fuel line).length := by
  cases fuel with
  | zero =>
    cases line with
    | nil => simp at h
    | cons c cs => simp at hf
  | succ f =>
    cases line with
    | nil => simp at h
    | cons c cs =>
      simp only [lineSegmentsGo, List.length_cons]
      have hdne : (c :: cs).drop maxChars ≠ [] := by
        intro hx
        have := List.drop_eq_nil_iff.mp hx
        omega
      have := List.length_pos.mpr (lineSegmentsGo_ne_nil maxChars f _ hdne)
      omega

theorem joinEntryLines_single (e : ChunkEntry) : joinEntryLines [e] = e.line := by
  simp [joinEntryLines, List.intercalate]

theorem flushChunks_nil (sha : List Char → String) (cs : List MemoryChunk) (cc : Nat) :
    flushChunks sha ⟨cs, [], cc⟩ = ⟨cs, [], cc⟩ := rfl

theorem flushChunks_cons (sha : List Char → String) (cs : List MemoryChunk)
    (e : ChunkEntry) (es : List ChunkEntry) (cc : Nat) :
    flushChunks sha ⟨cs, e :: es, cc⟩ =
      ⟨cs ++ [⟨joinEntryLines (e :: es), e.lineNo,
        ((e :: es).getLast (List.cons_ne_nil _ _)).lineNo,
        sha (joinEntryLines (e :: es))⟩], e :: es, cc⟩ := rfl

theorem flushChunks_single (sha : List Char → String) (cs : List MemoryChunk)
    (e : ChunkEntry) (cc : Nat) :
    flushChunks sha ⟨cs, [e], cc⟩ =
      ⟨cs ++ [singleChunk sha e.lineNo e.line], [e], cc⟩ := by
  rw [flushChunks_cons]
  simp [joinEntryLines_single, singleChunk]

theorem carryOverlap_zero (st : ChunkAccum) :
    carryOverlap 0 st = { st with current := [], currentChars := 0 } := by
  simp [carryOverlap]

theorem pushSegment_no_flush (sha : List Char → String) (m o : Nat)
    (cs : List MemoryChunk) (cur : List ChunkEntry) (cc : Nat) (seg : ChunkEntry)
    (hcond : ¬ (m < cc + entrySize seg ∧ cur ≠ [])) :
    pushSegment sha m o ⟨cs, cur, cc⟩ seg = ⟨cs, cur ++ [seg], cc + entrySize seg⟩ := by
  simp only [pushSegment, if_neg hcond]

theorem pushSegment_flush_zero (sha : List Char → String) (m : Nat)
    (cs : List MemoryChunk) (cur : List ChunkEntry) (cc : Nat) (seg : ChunkEntry)
    (hov : m < cc + entrySize seg) (hcur : cur ≠ []) :
    pushSegment sha m 0 ⟨cs, cur, cc⟩ seg =
      ⟨(flushChunks sha ⟨cs, cur, cc⟩).chunks, [seg], entrySize seg⟩ := by
  simp only [pushSegment, if_pos (And.intro hov hcur), carryOverlap_zero]
  cases cur with
  | nil => exact absurd rfl hcur
  | cons e es =>
    rw [flushChunks_cons]
    simp

/-- With a zero overlap budget, folding the remaining segments of a single
line (all full but possibly the last) after a full segment emits one chunk per
segment. -/
theorem foldl_single_line (sha : List Char → String) (m n : Nat) :
    ∀ (segs : List (List Char)) (cs : List MemoryChunk) (p : ChunkEntry),
      p.lineNo = n → p.line.length = m →
      (∀ s ∈ segs.dropLast, s.length = m) →
      (flushChunks sha (segs.foldl (fun st s => pushSegment sha m 0 st ⟨s, n⟩)
          ⟨cs, [p], entrySize p⟩)).chunks
        = cs ++ (p.line :: segs).map (singleChunk sha n) := by
  intro segs
  induction segs with
  | nil =>
    intro cs p hpn hpl _
    simp only [List.foldl_nil, List.map_cons, List.map_nil]
    rw [flushChunks_single]
    simp [hpn]
  | cons s rest ih =>
    intro cs p hpn hpl hfull
    have hstep : pushSegment sha m 0 ⟨cs, [p], entrySize p⟩ ⟨s, n⟩ =
        ⟨cs ++ [singleChunk sha n p.line], [⟨s, n⟩], entrySize ⟨s, n⟩⟩ := by
      rw [pushSegment_flush_zero sha m cs [p] (entrySize p) ⟨s, n⟩
        (by simp [entrySize, hpl]; omega) (by simp)]
      rw [flushChunks_single]
      simp [hpn]
    rw [List.foldl_cons, hstep]
    cases rest with
    | nil =>
      simp only [List.foldl_nil]
      rw [flushChunks_single]
      simp
    | cons t ts =>
      have hdl : (s :: t :: ts).dropLast = s :: (t :: ts).dropLast :=
        List.dropLast_cons_of_ne_nil (List.cons_ne_nil _ _)
      have hs_full : s.length = m := by
        apply hfull
        rw [hdl]
        exact List.mem_cons_self _ _
      have hrest_full : ∀ u ∈ (t :: ts).dropLast, u.length = m := by
        intro u hu
        apply hfull
        rw [hdl]
        exact List.mem_cons_of_mem _ hu
      rw [ih (cs ++ [singleChunk sha n p.line]) ⟨s, n⟩ rfl hs_full hrest_full]
      simp

/-- The chunks produced from a single line longer than `maxChars`, with zero
overlap, are exactly one chunk per slice of the line. -/
theorem chunkMarkdown_single_line (sha : List Char → String) (cfg : ChunkingConfig)
    (line : List Char) (hmin : 0 < cfg.minChars) (hov : cfg.overlap = 0)
    (hnl : '\n' ∉ line) (hlen : maxCharsOf cfg < line.length) :
    chunkMarkdown sha line cfg =
      (lineSegments (maxCharsOf cfg) line).map (singleChunk sha 1) := by
  have h0 : 0 < maxCharsOf cfg := by
    have : cfg.minChars ≤ maxCharsOf cfg := le_max_left _ _
    omega
  obtain ⟨c, cs, rfl⟩ : ∃ c cs, line = c :: cs := by
    cases line with
    | nil => simp at hlen
    | cons c cs => exact ⟨c, cs, rfl⟩
  have hoc : overlapCharsOf cfg = 0 := by simp [overlapCharsOf, hov]
  unfold chunkMarkdown
  rw [splitLines_no_newline _ hnl]
  rw [if_neg (List.cons_ne_nil _ [])]
  unfold chunkLinesByChars
  rw [if_neg (List.cons_ne_nil _ [])]
  simp only [hoc]
  have hseg : segmentEntries (maxCharsOf cfg) 1 [c :: cs] =
      (lineSegments (maxCharsOf cfg) (c :: cs)).map fun s => ⟨s, 1⟩ := by
    simp [segmentEntries, List.enum]
  rw [hseg]
  have hpeel : lineSegments (maxCharsOf cfg) (c :: cs) =
      (c :: cs).take (maxCharsOf cfg) ::
        lineSegmentsGo (maxCharsOf cfg) cs.length ((c :: cs).drop (maxCharsOf cfg)) := by
    simp [lineSegments, lineSegmentsGo]
  rw [hpeel]
  simp only [List.map_cons, List.foldl_cons]
  have hfirst : pushSegment sha (maxCharsOf cfg) 0 ⟨[], [], 0⟩
      ⟨(c :: cs).take (maxCharsOf cfg), 1⟩ =
      ⟨[], [⟨(c :: cs).take (maxCharsOf cfg), 1⟩],
        entrySize ⟨(c :: cs).take (maxCharsOf cfg), 1⟩⟩ := by
    rw [pushSegment_no_flush]
    · simp
    · simp
  rw [hfirst, List.foldl_map]
  have hlen' : maxCharsOf cfg < cs.length + 1 := by
    simpa using hlen
  rw [foldl_single_line sha (maxCharsOf cfg) 1 _ [] _ rfl
    (by simp only [List.length_take, List.length_cons]; omega)
    (lineSegmentsGo_dropLast_full _ h0 cs.length _
      (by simp only [List.length_drop, List.length_cons]; omega))]
  simp

/-- Claim C4 counterexample: the chunker applied to the empty string does not
yield zero chunks — `chunkMarkdown` on `""` (with the default chunking
configuration) produces one chunk, whose content is empty. -/
theorem C4_counterexample :
    chunkMarkdown (fun l => l.asString) [] ⟨400, 80, 32, 4⟩ ≠ [] := by decide

/-- Claim C4 (amended): for every chunking configuration, the chunker applied
to an empty file's content yields exactly one chunk, whose content is the
empty string (spanning line 1); the sync engine's whitespace filter then drops
it, so an empty file contributes zero indexed chunks. -/
theorem C4_chunker_empty_content (sha : List Char → String) (cfg : ChunkingConfig) :
    chunkMarkdown sha [] cfg = [⟨[], 1, 1, sha []⟩] ∧
      dropWhitespaceChunks (chunkMarkdown sha [] cfg) = [] := by
  have hmain : chunkMarkdown sha [] cfg = [⟨[], 1, 1, sha []⟩] := by
    unfold chunkMarkdown
    have hsplit : splitLines [] = [[]] := rfl
    rw [hsplit]
    rw [if_neg (List.cons_ne_nil ([] : List Char) [])]
    unfold chunkLinesByChars
    rw [if_neg (List.cons_ne_nil ([] : List Char) [])]
    have hseg : segmentEntries (maxCharsOf cfg) 1 [[]] = [⟨[], 1⟩] := by
      simp [segmentEntries, List.enum, lineSegments]
    simp only [hseg, List.foldl_cons, List.foldl_nil]
    rw [pushSegment_no_flush sha _ _ [] [] 0 ⟨[], 1⟩ (by simp)]
    simp only [List.nil_append, Nat.zero_add]
    rw [flushChunks_single]
    simp [singleChunk]
  refine ⟨hmain, ?_⟩
  rw [hmain]
  simp [dropWhitespaceChunks, jsTrim]

/-- Claim C5 counterexample: with chunking configuration
`{tokens := 2, overlap := 1, minChars := 1, charsPerToken := 1}`
(so `maxChars = 2`) the single 5-character line `"aaaaa"` produces the chunks
`["aa", "aa\naa", "aa\na"]`, the second of which has length 5 > maxChars:
the overlap carry re-counts the carried segment's size, so chunk contents can
exceed `maxChars` whenever `overlap > 0`. -/
theorem C5_counterexample :
    ¬ (∀ c ∈ chunkMarkdown (fun l => l.asString) "aaaaa".data ⟨2, 1, 1, 1⟩,
        c.content.length ≤ maxCharsOf ⟨2, 1, 1, 1⟩) := by decide

/-- Claim C5 (amended): for every chunking configuration whose overlap is zero,
a single line longer than `maxChars` is chunked into more than one chunk, each
of whose contents has length at most `maxChars`.  (With a positive overlap the
bound fails, per the counterexample.) -/
theorem C5_long_line_split (sha : List Char → String) (cfg : ChunkingConfig)
    (line : List Char) (hmin : 0 < cfg.minChars) (hov : cfg.overlap = 0)
    (hnl : '\n' ∉ line) (hlen : maxCharsOf cfg < line.length) :
    1 < (chunkMarkdown sha line cfg).length ∧
      ∀ c ∈ chunkMarkdown sha line cfg, c.content.length ≤ maxCharsOf cfg := by
  have h0 : 0 < maxCharsOf cfg := by
    have : cfg.minChars ≤ maxCharsOf cfg := le_max_left _ _
    omega
  have hline_ne : line ≠ [] := by
    intro h
    rw [h] at hlen
    simp at hlen
  have hsegs : lineSegments (maxCharsOf cfg) line =
      lineSegmentsGo (maxCharsOf cfg) line.length line := by
    simp [lineSegments, if_neg hline_ne]
  rw [chunkMarkdown_single_line sha cfg line hmin hov hnl hlen, hsegs]
  constructor
  · rw [List.length_map]
    have := lineSegmentsGo_two_le (maxCharsOf cfg) line.length line h0 hlen le_rfl
    omega
  · intro c hc
    rcases List.mem_map.mp hc with ⟨s, hs, rfl⟩
    exact lineSegmentsGo_le (maxCharsOf cfg) h0 line.length line le_rfl s hs

/-- Witness for C5: the amended theorem applied to the concrete configuration
`{tokens := 2, overlap := 0, minChars := 1, charsPerToken := 1}` and the
5-character line `"aaaaa"`. -/
theorem C5_long_line_split_witness :
    1 < (chunkMarkdown (fun l => l.asString) "aaaaa".data ⟨2, 0, 1, 1⟩).length ∧
      ∀ c ∈ chunkMarkdown (fun l => l.asString) "aaaaa".data ⟨2, 0, 1, 1⟩,
        c.content.length ≤ maxCharsOf ⟨2, 0, 1, 1⟩ :=
  C5_long_line_split (fun l => l.asString) ⟨2, 0, 1, 1⟩ "aaaaa".data
    (by decide) rfl (by decide) (by decide)

theorem scoreFallbackRows_mem (queryVec : List Float) :
    ∀ (rows : List SChunkRow) (warned : Bool) (p : SChunkRow × Float),
      p ∈ (scoreFallbackRows queryVec rows warned).1 →
        p.1 ∈ rows ∧ (p.1.embedding.length ≠ queryVec.length → p.2 = 0) := by
  intro rows
  induction rows with
  | nil =>
    intro warned p hp
    simp [scoreFallbackRows] at hp
  | cons r rest ih =>
    intro warned p hp
    simp only [scoreFallbackRows] at hp
    by_cases hmis : r.embedding.length ≠ queryVec.length
    · rw [if_pos hmis] at hp
      rcases List.mem_cons.mp hp with h1 | h2
      · subst h1
        exact ⟨List.mem_cons_self _ _, fun _ => rfl⟩
      · have := ih true p h2
        exact ⟨List.mem_cons_of_mem _ this.1, this.2⟩
    · rw [if_neg hmis] at hp
      rcases List.mem_cons.mp hp with h1 | h2
      · subst h1
        exact ⟨List.mem_cons_self _ _, fun hc => absurd hc hmis⟩
      · have := ih warned p h2
        exact ⟨List.mem_cons_of_mem _ this.1, this.2⟩

theorem scoreFallbackRows_warn (queryVec : List Float) :
    ∀ (rows : List SChunkRow) (warned : Bool),
      (scoreFallbackRows queryVec rows warned).2 ≤ if warned then 0 else 1 := by
  intro rows
  induction rows with
  | nil =>
    intro warned
    simp [scoreFallbackRows]
  | cons r rest ih =>
    intro warned
    simp only [scoreFallbackRows]
    by_cases hmis : r.embedding.length ≠ queryVec.length
    · rw [if_pos hmis]
      have := ih true
      cases warned <;> simp at this ⊢ <;> omega
    · rw [if_neg hmis]
      exact ih warned

/-- Claim C6: in the fallback search path (vector table absent or extension
unavailable), every returned hit originating from a chunk row whose parsed
embedding length differs from the query vector's length carries score 0, and
at most one dimension-mismatch warning is emitted per search call. -/
theorem C6_fallback_dim_mismatch (db : SearchDb) (dist : List Float → List Float → Float)
    (queryVec : List Float) (limit : Int) (model : Option String) (snippetMaxChars : Nat)
    (hfb : ¬ (db.hasVecTable = true ∧ db.vecExtensionOk = true)) :
    (∀ hit ∈ (searchVectorWithWarningCount db dist queryVec limit model snippetMaxChars).1,
      ∃ r ∈ db.chunks, r.id = hit.id ∧
        (r.embedding.length ≠ queryVec.length → hit.score = 0)) ∧
    (searchVectorWithWarningCount db dist queryVec limit model snippetMaxChars).2 ≤ 1 := by
  unfold searchVectorWithWarningCount
  by_cases hearly : queryVec.length = 0 ∨ limit ≤ 0
  · rw [if_pos hearly]
    exact ⟨by intro hit h; simp at h, by simp⟩
  · rw [if_neg hearly]
    have hvec : (db.hasVecTable && if db.hasVecTable then db.vecExtensionOk else false) = false := by
      cases h1 : db.hasVecTable with
      | false => simp
      | true =>
        cases h2 : db.vecExtensionOk with
        | false => simp
        | true => exact absurd ⟨h1, h2⟩ hfb
    simp only [hvec, Bool.false_eq_true, if_false]
    constructor
    · intro hit hhit
      simp only [List.mem_map] at hhit
      obtain ⟨p, hp, rfl⟩ := hhit
      have hp_sorted := List.mem_of_mem_take hp
      have hp_finite := (List.mergeSort_perm _ _).mem_iff.mp hp_sorted
      have hp_scored := List.mem_of_mem_filter hp_finite
      have hrows := scoreFallbackRows_mem queryVec _ false p hp_scored
      have hchunks : p.1 ∈ db.chunks := by
        rcases hm : (match model.map jsTrimStr with
          | none => none
          | some t => if t = "" then none else some t : Option String) with _ | t
        · have := hrows.1
          rw [hm] at this
          exact this
        · have := hrows.1
          rw [hm] at this
          exact List.mem_of_mem_filter this
      exact ⟨p.1, hchunks, rfl, fun hmis => hrows.2 hmis⟩
    · have := scoreFallbackRows_warn queryVec
        (match (match model.map jsTrimStr with
          | none => none
          | some t => if t = "" then none else some t : Option String) with
          | some t => db.chunks.filter fun c => c.model == t
          | none => db.chunks) false
      simp at this
      exact le_trans this (by omega)

/-- Witness for C6: the theorem applied to a concrete database whose vector
table is absent (one chunk row with a 1-dimensional embedding, query of
length 2), with the trivial distance function. -/
theorem C6_fallback_dim_mismatch_witness :
    (∀ hit ∈ (searchVectorWithWarningCount
        ⟨[⟨"c0", "MEMORY.md", 1, 1, "hi".data, [(1 : Float)], "m"⟩], [], false, false⟩
        (fun _ _ => (0 : Float)) [(1 : Float), (2 : Float)] 10 none 700).1,
      ∃ r ∈ [⟨"c0", "MEMORY.md", 1, 1, "hi".data, [(1 : Float)], "m"⟩],
        SChunkRow.id r = hit.id ∧
          (r.embedding.length ≠ [(1 : Float), (2 : Float)].length → hit.score = 0)) ∧
    (searchVectorWithWarningCount
        ⟨[⟨"c0", "MEMORY.md", 1, 1, "hi".data, [(1 : Float)], "m"⟩], [], false, false⟩
        (fun _ _ => (0 : Float)) [(1 : Float), (2 : Float)] 10 none 700).2 ≤ 1 :=
  C6_fallback_dim_mismatch _ _ _ _ _ _ (by simp)

/-- Claim C10: a `model` argument that trims to the empty string (empty or
all-whitespace) is falsy in `searchVector`, so the search behaves exactly as
if the model filter were absent. -/
theorem C10_blank_model_filter (db : SearchDb) (dist : List Float → List Float → Float)
    (queryVec : List Float) (limit : Int) (snippetMaxChars : Nat) (s : String)
    (hs : jsTrimStr s = "") :
    searchVector db dist queryVec limit (some s) snippetMaxChars =
      searchVector db dist queryVec limit none snippetMaxChars := by
  unfold searchVector searchVectorWithWarningCount
  simp [hs]

/-- Witness for C10: the whitespace-only model string `" "` against a concrete
one-row database. -/
theorem C10_blank_model_filter_witness :
    searchVector ⟨[⟨"c0", "MEMORY.md", 1, 1, "hi".data, [(1 : Float)], "m"⟩], [], false, false⟩
        (fun _ _ => (0 : Float)) [(1 : Float)] 10 (some " ") 700 =
      searchVector ⟨[⟨"c0", "MEMORY.md", 1, 1, "hi".data, [(1 : Float)], "m"⟩], [], false, false⟩
        (fun _ _ => (0 : Float)) [(1 : Float)] 10 none 700 :=
  C10_blank_model_filter _ _ _ _ _ " " (by decide)

/-- Claim C8: while waiting on a lock file, a waiter (1) never unlinks a file
whose payload parses and whose positive pid probes as anything but
no-such-process (in particular a permission-denied probe counts as live),
(2) does unlink it when the probe reports no-such-process, and (3) unlinks a
file with malformed payload exactly when its age is known and exceeds the
2-second grace period. -/
theorem C8_lock_wait_unlink (probe : Int → KillProbe) (info : Option LockInfo)
    (ageMs : Option Int) :
    (∀ i, info = some i → 0 < i.pid → probe i.pid ≠ .esrch →
      waitIterationUnlinks probe info ageMs = false) ∧
    (∀ i, info = some i → 0 < i.pid → probe i.pid = .esrch →
      waitIterationUnlinks probe info ageMs = true) ∧
    (info = none →
      (waitIterationUnlinks probe info ageMs = true ↔
        ∃ a, ageMs = some a ∧ CORRUPT_LOCK_GRACE_MS < a)) := by
  refine ⟨?_, ?_, ?_⟩
  · intro i hi hpos hprobe
    subst hi
    simp only [waitIterationUnlinks, isPidAlive, if_neg (by omega : ¬ i.pid ≤ 0)]
    cases hp : probe i.pid with
    | esrch => exact absurd hp hprobe
    | ok => simp
    | eperm => simp
    | otherFail => simp
  · intro i hi hpos hprobe
    subst hi
    simp only [waitIterationUnlinks, isPidAlive, if_neg (by omega : ¬ i.pid ≤ 0), hprobe]
    rfl
  · intro hi
    subst hi
    simp only [waitIterationUnlinks]
    cases ageMs with
    | none => simp
    | some a => simp

/-- Witness for C8: a live-pid lock (probe answers `EPERM`) is not unlinked;
instantiated at pid 5 with a 1-second-old well-formed payload. -/
theorem C8_lock_wait_unlink_witness :
    waitIterationUnlinks (fun _ => .eperm) (some ⟨5, 0⟩) (some 1000) = false :=
  (C8_lock_wait_unlink (fun _ => .eperm) (some ⟨5, 0⟩) (some 1000)).1
    ⟨5, 0⟩ rfl (by decide) (by decide)

/-- Claim C9: a request whose protocol version differs from the daemon's, or
whose client version is set and differs from the daemon's build version, is
answered with `ok = false` and `restartRequired = true`, and the daemon
executes nothing: no run is performed and no shutdown is triggered. -/
theorem C9_daemon_version_gate (daemonVersion : String)
    (runner : List String → Option String → Int) (req : DaemonRequest)
    (hmis : req.protocolVersion ≠ DAEMON_PROTOCOL_VERSION ∨
      (req.clientVersion ≠ "" ∧ req.clientVersion ≠ daemonVersion)) :
    (serveRequest daemonVersion runner req).1.ok = false ∧
    (serveRequest daemonVersion runner req).1.restartRequired = true ∧
    (serveRequest daemonVersion runner req).2 = .noExec := by
  unfold serveRequest
  by_cases hp : req.protocolVersion ≠ DAEMON_PROTOCOL_VERSION
  · rw [if_pos hp]
    exact ⟨rfl, rfl, rfl⟩
  · rw [if_neg hp]
    have hc : req.clientVersion ≠ "" ∧ req.clientVersion ≠ daemonVersion := by
      rcases hmis with h | h
      · exact absurd h hp
      · exact h
    rw [if_pos hc]
    exact ⟨rfl, rfl, rfl⟩

/-- Witness for C9: a shutdown request carrying protocol version 2 against a
protocol-1 daemon is refused with `restartRequired` and triggers no shutdown. -/
theorem C9_daemon_version_gate_witness :
    (serveRequest "1.0.0" (fun _ _ => 0)
      ⟨.shutdown, 2, "1.0.0", [], none⟩).1.ok = false ∧
    (serveRequest "1.0.0" (fun _ _ => 0)
      ⟨.shutdown, 2, "1.0.0", [], none⟩).1.restartRequired = true ∧
    (serveRequest "1.0.0" (fun _ _ => 0)
      ⟨.shutdown, 2, "1.0.0", [], none⟩).2 = DaemonAction.noExec :=
  C9_daemon_version_gate "1.0.0" (fun _ _ => 0)
    ⟨.shutdown, 2, "1.0.0", [], none⟩ (Or.inl (by decide))

theorem isFileAt_nil_path : ∀ cs : FsListing, isFileAt cs [] = false
  | .nil => rfl
  | .cons e rest => by
    rw [isFileAt, isFileAt_nil_path rest]
    cases e <;> rfl

theorem entryFileMatch_name (e : FsEntry) (p : List String)
    (h : entryFileMatch e p = true) : p.head? = some e.name := by
  cases e with
  | file m c =>
    match p with
    | [] => simp [entryFileMatch] at h
    | [n] =>
      simp only [entryFileMatch] at h
      simp [FsEntry.name, (beq_iff_eq).mp h]
    | a :: b :: q => simp [entryFileMatch] at h
  | dir m cs =>
    match p with
    | [] => simp [entryFileMatch] at h
    | [n] => simp [entryFileMatch] at h
    | a :: b :: q =>
      simp only [entryFileMatch, Bool.and_eq_true] at h
      simp [FsEntry.name, (beq_iff_eq).mp h.1]

theorem isFileAt_name_absent : ∀ (cs : FsListing) (n : String) (q : List String),
    n ∉ fsNames cs → isFileAt cs (n :: q) = false
  | .nil, _, _, _ => rfl
  | .cons e rest, n, q, habs => by
    rw [isFileAt, isFileAt_name_absent rest n q (fun hm => habs (by simp [fsNames, hm]))]
    simp only [Bool.or_false]
    cases hem : entryFileMatch e (n :: q) with
    | false => rfl
    | true =>
      have := entryFileMatch_name e _ hem
      simp only [List.head?_cons, Option.some.injEq] at this
      exact absurd (by simp [fsNames, this]) habs

theorem mdSuffix_cons (a : String) (q : List String) (hq : q ≠ []) :
    mdSuffix (a :: q) = mdSuffix q := by
  cases q with
  | nil => exact absurd rfl hq
  | cons b q' => simp [mdSuffix, List.getLast?_cons_cons]

mutual

theorem walkMdEntry_mem : ∀ (e : FsEntry) (p : List String),
    p ∈ walkMdEntry e ↔ (entryFileMatch e p = true ∧ mdSuffix p = true)
  | .file n c, p => by
    constructor
    · intro hp
      rw [walkMdEntry] at hp
      split at hp
      · next hmd =>
        simp only [List.mem_singleton] at hp
        subst hp
        refine ⟨by simp [entryFileMatch], ?_⟩
        simp [mdSuffix, hmd]
      · simp at hp
    · rintro ⟨hm, hs⟩
      match p with
      | [] => simp [entryFileMatch] at hm
      | [a] =>
        simp only [entryFileMatch] at hm
        have := (beq_iff_eq).mp hm
        subst this
        simp only [mdSuffix, List.getLast?_singleton] at hs
        rw [walkMdEntry, if_pos hs]
        simp
      | a :: b :: q => simp [entryFileMatch] at hm
  | .dir n cs, p => by
    rw [walkMdEntry]
    constructor
    · intro hp
      rcases List.mem_map.mp hp with ⟨q, hq, rfl⟩
      have hmem := (walkMd_mem cs q).mp hq
      have hqne : q ≠ [] := by
        intro h
        rw [h, isFileAt_nil_path] at hmem
        exact absurd hmem.1 (by simp)
      refine ⟨?_, ?_⟩
      · match q, hqne with
        | b :: q', _ =>
          simp only [entryFileMatch, Bool.and_eq_true]
          exact ⟨by simp, hmem.1⟩
      · rw [mdSuffix_cons n q hqne]
        exact hmem.2
    · rintro ⟨hm, hs⟩
      match p with
      | [] => simp [entryFileMatch] at hm
      | [a] => simp [entryFileMatch] at hm
      | a :: b :: q =>
        simp only [entryFileMatch, Bool.and_eq_true] at hm
        have ha := (beq_iff_eq).mp hm.1
        subst ha
        refine List.mem_map.mpr ⟨b :: q, ?_, rfl⟩
        refine (walkMd_mem cs (b :: q)).mpr ⟨hm.2, ?_⟩
        rw [mdSuffix_cons _ _ (List.cons_ne_nil _ _)] at hs
        exact hs

theorem walkMd_mem : ∀ (cs : FsListing) (p : List String),
    p ∈ walkMd cs ↔ (isFileAt cs p = true ∧ mdSuffix p = true)
  | .nil, p => by
    rw [walkMd, isFileAt]
    simp
  | .cons e rest, p => by
    rw [walkMd, isFileAt]
    rw [List.mem_append, walkMdEntry_mem e p, walkMd_mem rest p]
    constructor
    · rintro (⟨h1, h2⟩ | ⟨h1, h2⟩)
      · exact ⟨by simp [h1], h2⟩
      · exact ⟨by simp [h1], h2⟩
    · rintro ⟨h1, h2⟩
      rcases Bool.or_eq_true_iff.mp h1 with h | h
      · exact Or.inl ⟨h, h2⟩
      · exact Or.inr ⟨h, h2⟩

end

theorem findDirChildren_cons (e : FsEntry) (rest : FsListing) (n : String) :
    findDirChildren (.cons e rest) n =
      if e.name == n then
        (match e with
          | .dir _ cs => some cs
          | .file _ _ => none)
      else findDirChildren rest n := rfl

theorem findDirChildren_isFileAt : ∀ (ws : FsListing) (n : String) (q : List String),
    (fsNames ws).Nodup → q ≠ [] →
    (isFileAt ws (n :: q) = true ↔
      ∃ cs, findDirChildren ws n = some cs ∧ isFileAt cs q = true)
  | .nil, n, q, _, _ => by
    rw [isFileAt, findDirChildren]
    simp
  | .cons e rest, n, q, hnd, hq => by
    have hnd_rest : (fsNames rest).Nodup := by
      simp only [fsNames, List.nodup_cons] at hnd
      exact hnd.2
    have hname_rest : e.name ∉ fsNames rest := by
      simp only [fsNames, List.nodup_cons] at hnd
      exact hnd.1
    rw [isFileAt, findDirChildren_cons]
    by_cases hn : e.name = n
    · subst hn
      simp only [beq_self_eq_true, if_pos rfl]
      rw [isFileAt_name_absent rest e.name q hname_rest]
      cases e with
      | file m c =>
        match q, hq with
        | b :: q', _ =>
          simp [entryFileMatch, FsEntry.name]
      | dir m cs =>
        match q, hq with
        | b :: q', _ =>
          simp only [entryFileMatch, FsEntry.name, Bool.or_false, Bool.and_eq_true,
            beq_self_eq_true, true_and]
          constructor
          · intro h
            exact ⟨cs, rfl, h⟩
          · rintro ⟨cs', hcs', h⟩
            cases hcs'
            exact h
    · have hbn : (e.name == n) = false := by
        simp [hn]
      rw [hbn]
      simp only [Bool.false_eq_true, if_false]
      have hefm : entryFileMatch e (n :: q) = false := by
        cases hem : entryFileMatch e (n :: q) with
        | false => rfl
        | true =>
          have := entryFileMatch_name e _ hem
          simp only [List.head?_cons, Option.some.injEq] at this
          exact absurd this.symm hn
      rw [hefm]
      simp only [Bool.false_or]
      exact findDirChildren_isFileAt rest n q hnd_rest hq

/-- Claim C7: the set of workspace-relative paths `listMemoryFiles` considers
for indexing is exactly the long-memory candidate `MEMORY.md` when present,
plus every path that resolves to a regular file under `memory/` whose name
ends in `.md`; no other file is listed.  (`needsUpdate`, `ensureUpToDate`,
and `reindex` all enumerate files exclusively through `listMemoryFiles`.) -/
theorem C7_indexed_file_set (ws : FsListing) (hwf : fsWellFormed ws = true)
    (p : List String) :
    p ∈ listMemoryFiles ws ↔
      (p = [LONG_MEMORY_FILENAME_PRIMARY] ∧
        entryExists ws LONG_MEMORY_FILENAME_PRIMARY = true) ∨
      ((∃ q, p = MEMORY_DIRNAME :: q) ∧ isFileAt ws p = true ∧ mdSuffix p = true) := by
  have hnd : (fsNames ws).Nodup := by
    simp only [fsWellFormed, Bool.and_eq_true, decide_eq_true_eq] at hwf
    exact hwf.1
  unfold listMemoryFiles
  rw [List.mem_append]
  have hpart1 : (p ∈ if entryExists ws LONG_MEMORY_FILENAME_PRIMARY
      then [[LONG_MEMORY_FILENAME_PRIMARY]] else ([] : List (List String))) ↔
      (p = [LONG_MEMORY_FILENAME_PRIMARY] ∧
        entryExists ws LONG_MEMORY_FILENAME_PRIMARY = true) := by
    split
    · next hex => simp [hex]
    · next hex => simp [hex]
  rw [hpart1]
  have hpart2 : (p ∈ match findDirChildren ws MEMORY_DIRNAME with
      | none => ([] : List (List String))
      | some cs => (walkMd cs).map (fun q => MEMORY_DIRNAME :: q)) ↔
      ((∃ q, p = MEMORY_DIRNAME :: q) ∧ isFileAt ws p = true ∧ mdSuffix p = true) := by
    cases hfd : findDirChildren ws MEMORY_DIRNAME with
    | none =>
      simp only [List.not_mem_nil, false_iff]
      rintro ⟨⟨q, rfl⟩, hfile, hmd⟩
      cases q with
      | nil =>
        simp [mdSuffix, MEMORY_DIRNAME, jsEndsWith, List.isSuffixOf] at hmd
      | cons b q' =>
        rcases (findDirChildren_isFileAt ws MEMORY_DIRNAME (b :: q') hnd
          (List.cons_ne_nil _ _)).mp hfile with ⟨cs, hcs, _⟩
        rw [hfd] at hcs
        exact Option.noConfusion hcs
    | some cs =>
      constructor
      · intro hp
        rcases List.mem_map.mp hp with ⟨q, hq, rfl⟩
        have hmem := (walkMd_mem cs q).mp hq
        have hqne : q ≠ [] := by
          intro h
          rw [h, isFileAt_nil_path] at hmem
          exact absurd hmem.1 (by simp)
        refine ⟨⟨q, rfl⟩, ?_, ?_⟩
        · exact (findDirChildren_isFileAt ws MEMORY_DIRNAME q hnd hqne).mpr
            ⟨cs, hfd, hmem.1⟩
        · rw [mdSuffix_cons _ _ hqne]
          exact hmem.2
      · rintro ⟨⟨q, rfl⟩, hfile, hmd⟩
        cases q with
        | nil =>
          simp [mdSuffix, MEMORY_DIRNAME, jsEndsWith, List.isSuffixOf] at hmd
        | cons b q' =>
          rcases (findDirChildren_isFileAt ws MEMORY_DIRNAME (b :: q') hnd
            (List.cons_ne_nil _ _)).mp hfile with ⟨cs', hcs', hin⟩
          rw [hfd] at hcs'
          cases hcs'
          refine List.mem_map.mpr ⟨b :: q', ?_, rfl⟩
          refine (walkMd_mem cs (b :: q')).mpr ⟨hin, ?_⟩
          rw [mdSuffix_cons _ _ (List.cons_ne_nil _ _)] at hmd
          exact hmd
  rw [hpart2]

/-- Witness for C7: in a workspace holding `MEMORY.md`, a stray root-level
`notes.md`, and `memory/notes.md`, the theorem certifies that
`memory/notes.md` is listed while the stray root file is not. -/
theorem C7_indexed_file_set_witness :
    (["memory", "notes.md"] ∈ listMemoryFiles
      (.cons (.file "MEMORY.md" [])
        (.cons (.file "notes.md" [])
          (.cons (.dir "memory" (.cons (.file "notes.md" []) .nil)) .nil)))) ∧
    ¬ (["notes.md"] ∈ listMemoryFiles
      (.cons (.file "MEMORY.md" [])
        (.cons (.file "notes.md" [])
          (.cons (.dir "memory" (.cons (.file "notes.md" []) .nil)) .nil)))) :=
  ⟨(C7_indexed_file_set _ (by decide) _).mpr
      (Or.inr ⟨⟨["notes.md"], rfl⟩, by decide, by decide⟩),
    fun h => by
      rcases (C7_indexed_file_set _ (by decide) _).mp h with ⟨h1, _⟩ | ⟨⟨q, hq⟩, _⟩
      · exact absurd h1 (by decide)
      · exact absurd hq (by simp [MEMORY_DIRNAME])⟩

theorem buildEmbeddingBatchesGo_flatten (b : BatchingConfig) :
    ∀ (l : List MemoryChunk) (batches : List (List MemoryChunk))
      (current : List MemoryChunk) (t : Nat),
      (buildEmbeddingBatchesGo b l batches current t).flatten =
        batches.flatten ++ current ++ l := by
  intro l
  induction l with
  | nil =>
    intro batches current t
    rw [buildEmbeddingBatchesGo]
    split
    · next hc => simp [hc]
    · simp
  | cons c rest ih =>
    intro batches current t
    rw [buildEmbeddingBatchesGo]
    by_cases hflush : current ≠ [] ∧
        b.batchMaxTokens < t + estimateEmbeddingTokens c.content b.approxCharsPerToken
    · simp only [if_pos hflush]
      split
      · next hstand =>
        rw [ih]
        simp
      · next hstand =>
        rw [ih]
        rcases hstand' : (if (current ≠ [] ∧ b.batchMaxTokens <
            t + estimateEmbeddingTokens c.content b.approxCharsPerToken : Prop)
          then ([] : List MemoryChunk) else current) with _ | _
        all_goals simp [if_pos hflush]
    · simp only [if_neg hflush]
      split
      · next hstand =>
        rw [ih]
        rcases hstand with ⟨hcur, _⟩
        simp [hcur]
      · rw [ih]
        simp

theorem buildEmbeddingBatches_flatten (chunks : List MemoryChunk) (b : BatchingConfig) :
    (buildEmbeddingBatches chunks b).flatten = chunks := by
  rw [buildEmbeddingBatches, buildEmbeddingBatchesGo_flatten]
  simp

theorem mem_dedupHashesGo : ∀ (l seen : List String) (x : String),
    x ∈ dedupHashesGo l seen ↔ (x ∈ l ∧ x ≠ "" ∧ x ∉ seen) := by
  intro l
  induction l with
  | nil =>
    intro seen x
    simp [dedupHashesGo]
  | cons h rest ih =>
    intro seen x
    rw [dedupHashesGo]
    by_cases hemp : h = ""
    · rw [if_pos hemp, ih]
      subst hemp
      constructor
      · rintro ⟨h1, h2, h3⟩
        exact ⟨List.mem_cons_of_mem _ h1, h2, h3⟩
      · rintro ⟨h1, h2, h3⟩
        rcases List.mem_cons.mp h1 with rfl | h1
        · exact absurd rfl h2
        · exact ⟨h1, h2, h3⟩
    · rw [if_neg hemp]
      by_cases hseen : h ∈ seen
      · rw [if_pos hseen, ih]
        constructor
        · rintro ⟨h1, h2, h3⟩
          exact ⟨List.mem_cons_of_mem _ h1, h2, h3⟩
        · rintro ⟨h1, h2, h3⟩
          rcases List.mem_cons.mp h1 with rfl | h1
          · exact absurd hseen h3
          · exact ⟨h1, h2, h3⟩
      · rw [if_neg hseen]
        constructor
        · intro hx
          rcases List.mem_cons.mp hx with rfl | hx
          · exact ⟨List.mem_cons_self _ _, hemp, hseen⟩
          · rcases (ih _ _).mp hx with ⟨h1, h2, h3⟩
            refine ⟨List.mem_cons_of_mem _ h1, h2, fun hs => h3 ?_⟩
            exact List.mem_cons_of_mem _ hs
        · rintro ⟨h1, h2, h3⟩
          rcases List.mem_cons.mp h1 with rfl | h1
          · exact List.mem_cons_self _ _
          · by_cases hxh : x = h
            · subst hxh
              exact List.mem_cons_self _ _
            · refine List.mem_cons_of_mem _ ((ih _ _).mpr ⟨h1, h2, ?_⟩)
              intro hs
              rcases List.mem_cons.mp hs with h4 | h4
              · exact hxh h4
              · exact h3 h4

theorem mem_dedupHashes (hashes : List String) (x : String) :
    x ∈ dedupHashes hashes ↔ (x ∈ hashes ∧ x ≠ "") := by
  rw [dedupHashes, mem_dedupHashesGo]
  simp

theorem sliceBatchesGo_flatten (batchSize : Nat) (hbs : batchSize ≠ 0) :
    ∀ (fuel : Nat) (l : List String), l.length ≤ fuel →
      (sliceBatchesGo batchSize fuel l).flatten = l := by
  intro fuel
  induction fuel with
  | zero =>
    intro l hf
    cases l with
    | nil => rfl
    | cons a rest => simp at hf
  | succ f ih =>
    intro l hf
    cases l with
    | nil => rfl
    | cons a rest =>
      have hstep : sliceBatchesGo batchSize (f + 1) (a :: rest) =
          if batchSize = 0 then []
          else (a :: rest).take batchSize ::
            sliceBatchesGo batchSize f ((a :: rest).drop batchSize) := rfl
      rw [hstep, if_neg hbs]
      rw [List.flatten_cons, ih _ (by simp at hf ⊢; omega)]
      exact List.take_append_drop _ _

theorem sliceBatches_flatten (batchSize : Nat) (l : List String) (hbs : batchSize ≠ 0) :
    (sliceBatches batchSize l).flatten = l :=
  sliceBatchesGo_flatten batchSize hbs l.length l le_rfl

theorem cacheGet_cacheSelectBatch_of_mem (model : String) (row : CacheRow)
    (b : List String) (hb : row.hash ∈ b) (hrm : row.model = model) :
    ∀ (cache : List CacheRow), row ∈ cache →
      ((cache.map fun r => (r.model, r.hash)).Nodup) →
      cacheGet (cacheSelectBatch cache model b) row.hash = some row.embedding := by
  intro cache
  induction cache with
  | nil =>
    intro hrow _
    simp at hrow
  | cons r rest ih =>
    intro hrow hnd
    have hnd_rest : (rest.map fun r => (r.model, r.hash)).Nodup := by
      simp only [List.map_cons, List.nodup_cons] at hnd
      exact hnd.2
    have hkey_rest : (r.model, r.hash) ∉ rest.map fun r => (r.model, r.hash) := by
      simp only [List.map_cons, List.nodup_cons] at hnd
      exact hnd.1
    rw [cacheSelectBatch, List.filter_cons]
    by_cases hpred : (r.model == model && b.contains r.hash) = true
    · rw [if_pos hpred]
      simp only [List.map_cons]
      by_cases hhash : (r.hash == row.hash) = true
      · rw [cacheGet, List.find?_cons_of_pos _ (by simpa using hhash)]
        have hr_hash : r.hash = row.hash := (beq_iff_eq).mp hhash
        have hr_model : r.model = model := by
          have hp := hpred
          simp only [Bool.and_eq_true, beq_iff_eq] at hp
          exact hp.1
        rcases List.mem_cons.mp hrow with rfl | hrow_rest
        · simp
        · exact absurd (List.mem_map.mpr ⟨row, hrow_rest,
            by rw [hr_model, hrm, hr_hash]⟩) hkey_rest
      · rw [cacheGet, List.find?_cons_of_neg _ (by simpa using hhash)]
        have hrow_rest : row ∈ rest := by
          rcases List.mem_cons.mp hrow with rfl | h
          · exact absurd (by simp) hhash
          · exact h
        have := ih hrow_rest hnd_rest
        rw [cacheGet, cacheSelectBatch] at this
        exact this
    · rw [if_neg hpred]
      have hrow_rest : row ∈ rest := by
        rcases List.mem_cons.mp hrow with rfl | h
        · refine absurd ?_ hpred
          simp only [Bool.and_eq_true, beq_iff_eq]
          exact ⟨hrm, List.elem_eq_true_of_mem hb⟩
        · exact h
      have := ih hrow_rest hnd_rest
      rw [cacheGet, cacheSelectBatch] at this
      rw [cacheGet]
      exact this

theorem cacheGet_cacheSelectBatch_of_not_mem (cache : List CacheRow) (model : String)
    (b : List String) (hsh : String) (hb : hsh ∉ b) :
    cacheGet (cacheSelectBatch cache model b) hsh = none := by
  rw [cacheGet, Option.map_eq_none', List.find?_eq_none]
  rintro ⟨h, e⟩ hmem hbeq
  rcases List.mem_map.mp hmem with ⟨r, hr, heq⟩
  have hrb : r.hash ∈ b := by
    have hp := (List.mem_filter.mp hr).2
    simp only [Bool.and_eq_true] at hp
    exact List.mem_of_elem_eq_true hp.2
  have : h = r.hash := by
    cases heq
    rfl
  subst this
  exact hb ((beq_iff_eq).mp hbeq ▸ hrb)

theorem cacheGet_slices (cache : List CacheRow) (model : String) (row : CacheRow)
    (hrow : row ∈ cache) (hrm : row.model = model)
    (hpk : (cache.map fun r => (r.model, r.hash)).Nodup) :
    ∀ (slices : List (List String)), row.hash ∈ slices.flatten →
      cacheGet ((slices.map (cacheSelectBatch cache model)).flatten) row.hash =
        some row.embedding := by
  intro slices
  induction slices with
  | nil =>
    intro hmem
    simp at hmem
  | cons s rest ih =>
    intro hmem
    rw [List.map_cons, List.flatten_cons]
    rw [cacheGet, List.find?_append]
    by_cases hs : row.hash ∈ s
    · have hsome := cacheGet_cacheSelectBatch_of_mem model row s hs hrm cache hrow hpk
      rw [cacheGet] at hsome
      rcases hfind : List.find? (fun p => p.1 == row.hash) (cacheSelectBatch cache model s)
        with _ | pr
      · rw [hfind] at hsome
        simp at hsome
      · rw [hfind] at hsome
        rw [hfind]
        show Option.map (fun p => p.2) (some pr) = some row.embedding
        exact hsome
    · have hnone := cacheGet_cacheSelectBatch_of_not_mem cache model s row.hash hs
      rw [cacheGet, Option.map_eq_none'] at hnone
      rw [hnone, Option.none_or]
      have hmem_rest : row.hash ∈ rest.flatten := by
        rw [List.flatten_cons] at hmem
        rcases List.mem_append.mp hmem with h | h
        · exact absurd h hs
        · exact h
      have := ih hmem_rest
      rw [cacheGet] at this
      exact this

theorem loadEmbeddingCache_hit (cache : List CacheRow) (model : String)
    (hashes : List String) (batchSize : Nat) (hm : model ≠ "") (hbs : batchSize ≠ 0)
    (hpk : (cache.map fun r => (r.model, r.hash)).Nodup)
    (row : CacheRow) (hrow : row ∈ cache) (hrm : row.model = model)
    (hhash : row.hash ∈ hashes) (hne : row.hash ≠ "") :
    cacheGet (loadEmbeddingCache cache model hashes batchSize) row.hash =
      some row.embedding := by
  have hhashes_ne : hashes ≠ [] := by
    intro h
    rw [h] at hhash
    simp at hhash
  have huniq : row.hash ∈ dedupHashes hashes := (mem_dedupHashes _ _).mpr ⟨hhash, hne⟩
  have huniq_ne : dedupHashes hashes ≠ [] := by
    intro h
    rw [h] at huniq
    simp at huniq
  rw [loadEmbeddingCache, if_neg hm, if_neg hhashes_ne, if_neg huniq_ne]
  refine cacheGet_slices cache model row hrow hrm hpk _ ?_
  rw [sliceBatches_flatten _ _ hbs]
  exact huniq

theorem stitchEmbeddings_length : ∀ (hits : List (Option (List Float)))
    (fresh : List (List Float)),
    (stitchEmbeddings hits fresh).length = hits.length := by
  intro hits
  induction hits with
  | nil => intro fresh; rfl
  | cons h rest ih =>
    intro fresh
    cases h with
    | none => simp [stitchEmbeddings, ih]
    | some e => simp [stitchEmbeddings, ih]

theorem stitchEmbeddings_get_some : ∀ (hits : List (Option (List Float)))
    (fresh : List (List Float)) (i : Nat) (e : List Float),
    hits[i]? = some (some e) → (stitchEmbeddings hits fresh)[i]? = some e := by
  intro hits
  induction hits with
  | nil =>
    intro fresh i e h
    simp at h
  | cons h rest ih =>
    intro fresh i e hget
    cases i with
    | zero =>
      simp only [List.getElem?_cons_zero, Option.some.injEq] at hget
      subst hget
      show (e :: stitchEmbeddings rest fresh)[0]? = some e
      exact List.getElem?_cons_zero
    | succ j =>
      simp only [List.getElem?_cons_succ] at hget
      cases h with
      | none =>
        show (fresh.headD [] :: stitchEmbeddings rest fresh.tail)[j + 1]? = some e
        rw [List.getElem?_cons_succ]
        exact ih fresh.tail j e hget
      | some e' =>
        show (e' :: stitchEmbeddings rest fresh)[j + 1]? = some e
        rw [List.getElem?_cons_succ]
        exact ih fresh j e hget

/-- Claim C3: in the embedding pipeline, every chunk whose hash has a cache
row under the provider's model with a non-empty stored embedding takes its
embedding from the cache and its content is never sent to `embedBatch`; the
returned list has one embedding per input chunk, in input order.  The
hypotheses record the ambient facts of the call site: the provider's model
identifier is non-empty, the lookup batch size is positive (both clamped by
settings), chunk hashes are non-empty SHA-256 digests determined by the
chunk's content, and the cache's `(model, hash)` primary key holds. -/
theorem C3_cache_hits_not_recomputed (cache : List CacheRow) (p : ProviderModel)
    (chunks : List MemoryChunk) (b : BatchingConfig) (now : Int)
    (hm : p.modelPath ≠ "") (hbs : b.cacheLookupBatchSize ≠ 0)
    (hh : ∀ c ∈ chunks, c.hash ≠ "")
    (hcoh : ∀ c ∈ chunks, ∀ c' ∈ chunks, c.content = c'.content → c.hash = c'.hash)
    (hpk : (cache.map fun r => (r.model, r.hash)).Nodup) :
    ((embedChunksWithCache cache p chunks b now).2.1.length = chunks.length) ∧
    (∀ (i : Nat) (c : MemoryChunk), chunks[i]? = some c →
      ∀ row ∈ cache, row.model = p.modelPath → row.hash = c.hash →
        row.embedding ≠ [] →
        (embedChunksWithCache cache p chunks b now).2.1[i]? = some row.embedding ∧
        c.content ∉ (embedChunksWithCache cache p chunks b now).2.2.flatten) := by
  have hhit : ∀ c ∈ chunks, ∀ row ∈ cache, row.model = p.modelPath →
      row.hash = c.hash → row.embedding ≠ [] →
      cacheHitFor (embedCacheLookup cache p chunks b) c = some row.embedding := by
    intro c hc row hrow hrm hrh hremb
    have hch : c.hash ≠ "" := hh c hc
    have hmemhash : row.hash ∈ chunks.map (·.hash) :=
      List.mem_map.mpr ⟨c, hc, hrh.symm⟩
    have hget := loadEmbeddingCache_hit cache p.modelPath (chunks.map (·.hash))
      b.cacheLookupBatchSize hm hbs hpk row hrow hrm hmemhash (hrh ▸ hch)
    rw [hrh] at hget
    rw [embedCacheLookup, cacheHitFor, if_neg hch, hget]
    show (if row.embedding.isEmpty = true then none else some row.embedding) =
      some row.embedding
    have hie : row.embedding.isEmpty = false := by
      cases hre : row.embedding with
      | nil => exact absurd hre hremb
      | cons a l => rfl
    rw [hie]
    simp
  have hcalls_no_cached : ∀ c ∈ chunks, ∀ row ∈ cache, row.model = p.modelPath →
      row.hash = c.hash → row.embedding ≠ [] →
      c.content ∉ (embedCalls cache p chunks b).flatten := by
    intro c hc row hrow hrm hrh hremb hsent
    have hsent' : c.content ∈ ((buildEmbeddingBatches (embedMissing cache p chunks b) b).map
        (List.map (fun x : MemoryChunk => x.content))).flatten := hsent
    rw [← List.map_flatten, buildEmbeddingBatches_flatten] at hsent'
    rcases List.mem_map.mp hsent' with ⟨c', hc'_miss, hcc⟩
    rw [embedMissing] at hc'_miss
    have hc'_chunks : c' ∈ chunks := (List.mem_filter.mp hc'_miss).1
    have hc'_none : (cacheHitFor (embedCacheLookup cache p chunks b) c').isNone = true :=
      (List.mem_filter.mp hc'_miss).2
    have hhash_eq : c'.hash = c.hash := hcoh c' hc'_chunks c hc hcc
    have := hhit c' hc'_chunks row hrow hrm (hrh.trans hhash_eq.symm) hremb
    rw [this] at hc'_none
    simp at hc'_none
  by_cases hck : chunks = []
  · subst hck
    refine ⟨by simp [embedChunksWithCache], ?_⟩
    intro i c hget
    simp at hget
  · by_cases hmiss : embedMissing cache p chunks b = []
    · rw [embedChunksWithCache, if_neg hck, if_pos hmiss]
      constructor
      · simp [embedHits]
      · intro i c hget row hrow hrm hrh hremb
        have hc : c ∈ chunks := List.getElem?_mem hget
        refine ⟨?_, by simp⟩
        rw [embedHits, List.getElem?_map, List.getElem?_map, hget]
        simp only [Option.map_some']
        rw [hhit c hc row hrow hrm hrh hremb]
        rfl
    · rw [embedChunksWithCache, if_neg hck, if_neg hmiss]
      constructor
      · rw [stitchEmbeddings_length]
        simp [embedHits]
      · intro i c hget row hrow hrm hrh hremb
        have hc : c ∈ chunks := List.getElem?_mem hget
        refine ⟨?_, hcalls_no_cached c hc row hrow hrm hrh hremb⟩
        refine stitchEmbeddings_get_some _ _ i row.embedding ?_
        rw [embedHits, List.getElem?_map, hget]
        simp only [Option.map_some', Option.some.injEq]
        rw [hhit c hc row hrow hrm hrh hremb]

/-- Witness for C3: the theorem applied to a two-chunk batch whose first chunk
is cached under the provider's model. -/
theorem C3_cache_hits_not_recomputed_witness :
    ((embedChunksWithCache c3wCache c3wProv c3wChunks c3wB 7).2.1.length =
      c3wChunks.length) ∧
    (∀ (i : Nat) (c : MemoryChunk), c3wChunks[i]? = some c →
      ∀ row ∈ c3wCache, row.model = c3wProv.modelPath → row.hash = c.hash →
        row.embedding ≠ [] →
        (embedChunksWithCache c3wCache c3wProv c3wChunks c3wB 7).2.1[i]? =
          some row.embedding ∧
        c.content ∉ (embedChunksWithCache c3wCache c3wProv c3wChunks c3wB 7).2.2.flatten) :=
  C3_cache_hits_not_recomputed c3wCache c3wProv c3wChunks c3wB 7
    (by decide) (by decide) (by decide) (by decide) (by decide)

theorem upsertFileRow_find (files : List FileRow) (row : FileRow) :
    (upsertFileRow files row).find? (fun r => r.path == row.path) = some row := by
  unfold upsertFileRow
  by_cases h : (files.any fun r => r.path == row.path) = true
  · rw [if_pos h]
    induction files with
    | nil => simp at h
    | cons a l ih =>
      rw [List.map_cons]
      by_cases ha : (a.path == row.path) = true
      · rw [if_pos ha]
        exact List.find?_cons_of_pos _ (by simp)
      · rw [if_neg ha]
        rw [@List.find?_cons_of_neg _ (fun r => r.path == row.path) a _ ha]
        rw [List.any_cons] at h
        simp only [ha, Bool.false_or] at h
        exact ih h
  · rw [if_neg h]
    rw [List.find?_append]
    have hnone : files.find? (fun r => r.path == row.path) = none := by
      rw [List.find?_eq_none]
      intro x hx hpx
      exact h (List.any_eq_true.mpr ⟨x, hx, hpx⟩)
    rw [hnone, Option.none_or]
    exact @List.find?_cons_of_pos _ (fun r => r.path == row.path) row [] (by simp)

theorem txnInsertGo_ok_chunks (env : SyncEnv) (relPath model : String) (vr : Bool) :
    ∀ (items : List (Nat × MemoryChunk × List Float)) (acc : List ChunkRow)
      (vec : Option VecTable) (out : List ChunkRow × Option VecTable),
      txnInsertGo env relPath model vr items acc vec = some out →
      out.1 = acc ++ items.map (chunkRowOf env relPath model) := by
  intro items
  induction items with
  | nil =>
    intro acc vec out h
    simp only [txnInsertGo, Option.some.injEq] at h
    subst h
    simp
  | cons q rest ih =>
    intro acc vec out h
    obtain ⟨i, c, emb⟩ := q
    simp only [txnInsertGo] at h
    split at h
    · split at h
      · split at h
        · have := ih _ _ _ h
          rw [this]
          simp [chunkRowOf, List.append_assoc]
        · exact absurd h (by simp)
      · exact absurd h (by simp)
    · have := ih _ _ _ h
      rw [this]
      simp [chunkRowOf, List.append_assoc]

theorem txnInsertGo_ok_vec (env : SyncEnv) (relPath model : String) :
    ∀ (items : List (Nat × MemoryChunk × List Float)) (acc : List ChunkRow)
      (t : VecTable) (out : List ChunkRow × Option VecTable),
      txnInsertGo env relPath model true items acc (some t) = some out →
      out.2 = some ⟨t.dims,
        t.rows ++ (items.filter fun q => !q.2.2.isEmpty).map fun q =>
          (env.buildChunkId relPath q.2.1.lineStart q.2.1.lineEnd q.2.1.hash q.1,
            q.2.2)⟩ := by
  intro items
  induction items with
  | nil =>
    intro acc t out h
    simp only [txnInsertGo, Option.some.injEq] at h
    subst h
    simp
  | cons q rest ih =>
    intro acc t out h
    obtain ⟨i, c, emb⟩ := q
    simp only [txnInsertGo] at h
    by_cases he : emb.isEmpty = true
    · rw [if_neg (by simp [he])] at h
      have := ih _ _ _ h
      rw [this]
      simp [List.filter_cons, he]
    · rw [if_pos ⟨by trivial, he⟩] at h
      split at h
      · have := ih _ _ _ h
        rw [this]
        simp [List.filter_cons, he, List.append_assoc]
      · exact absurd h (by simp)

theorem ensureVectorReady_chunks_files (env : SyncEnv) (db : Db) (m : String)
    (n : Nat) :
    (ensureVectorReady env db m n).1.chunks = db.chunks ∧
      (ensureVectorReady env db m n).1.files = db.files := by
  simp only [ensureVectorReady]
  split
  · exact ⟨rfl, rfl⟩
  · split
    · exact ⟨rfl, rfl⟩
    · exact ⟨rfl, rfl⟩

theorem indexFilePre_chunks_files (env : SyncEnv) (db : Db) (f : DiskFile) :
    (indexFilePre env db f).1.chunks = db.chunks ∧
      (indexFilePre env db f).1.files = db.files := by
  unfold indexFilePre
  cases hp : env.provider with
  | none => exact ⟨rfl, rfl⟩
  | some p => exact ensureVectorReady_chunks_files env _ p.modelPath _

theorem ensureVectorReady_ready_vec (env : SyncEnv) (db : Db) (m : String)
    (n : Nat) :
    (ensureVectorReady env db m n).2 = true →
      ((ensureVectorReady env db m n).1.vec).isSome = true := by
  simp only [ensureVectorReady]
  split
  · intro h
    exact absurd h (by simp)
  · split
    · intro h
      exact absurd h (by simp)
    · intro _
      repeat' split
      all_goals rfl

theorem indexFilePre_ready_vec (env : SyncEnv) (db : Db) (f : DiskFile)
    (h : (indexFilePre env db f).2.2.2.1 = true) :
    ((indexFilePre env db f).1.vec).isSome = true := by
  unfold indexFilePre at h ⊢
  cases hp : env.provider with
  | none =>
    rw [hp] at h
    exact absurd h Bool.false_ne_true
  | some p =>
    rw [hp] at h
    exact ensureVectorReady_ready_vec env _ p.modelPath _ h

/-- C2: amended. If the transaction of `indexFile` commits, all its writes
are visible together: the file row is upserted to the fresh
`(path, hash, mtime, size)`, the chunk rows stored for the path are exactly
the freshly built rows in input order, and — when the vector table is
ready — every chunk with a non-empty embedding has its vector row present.
If the transaction fails, the rollback restores the chunk and file tables to
their pre-call state, but the pre-transaction effects (cache upserts, the
metadata write, and the vector-table drop/recreate of `ensureVectorReady`)
are not rolled back. -/
theorem C2_txn_atomicity (env : SyncEnv) (db : Db) (f : DiskFile) :
    (∀ d, indexFile env db f = .ok d →
        d.files.find? (fun r => r.path == f.path) =
          some ⟨f.path, env.hashFile f.content, f.mtime, f.size⟩ ∧
        (d.chunks.filter fun c => c.file_path == f.path) =
          (builtItems env db f).map
            (chunkRowOf env f.path (indexFilePre env db f).2.2.2.2) ∧
        ((indexFilePre env db f).2.2.2.1 = true →
          ∀ q ∈ builtItems env db f, (!q.2.2.isEmpty) = true →
            ∃ t, d.vec = some t ∧
              (env.buildChunkId f.path q.2.1.lineStart q.2.1.lineEnd q.2.1.hash
                  q.1, q.2.2) ∈ t.rows)) ∧
    (∀ d, indexFile env db f = .error d →
        d.chunks = db.chunks ∧ d.files = db.files) := by
  constructor
  · intro d hd
    simp only [indexFile] at hd
    split at hd
    · exact absurd hd (by simp)
    · rename_i newRows vecFinal heq
      injection hd with hd
      subst hd
      refine ⟨?_, ?_, ?_⟩
      · exact upsertFileRow_find (indexFilePre env db f).1.files
          ⟨f.path, env.hashFile f.content, f.mtime, f.size⟩
      · have hrows := txnInsertGo_ok_chunks env f.path _ _ _ _ _ _ heq
        simp only [List.nil_append] at hrows
        simp only [hrows]
        rw [List.filter_append]
        have h1 : ((indexFilePre env db f).1.chunks.filter fun cr =>
            cr.file_path != f.path).filter (fun c => c.file_path == f.path) = [] := by
          rw [List.filter_filter]
          rw [List.filter_eq_nil_iff]
          intro a _
          by_cases hp : (a.file_path == f.path) = true <;> simp [hp, bne]
        have h2 : (((indexFilePre env db f).2.1.enum.map fun q =>
              (q.1, q.2, (indexFilePre env db f).2.2.1.getD q.1 [])).map
                (chunkRowOf env f.path (indexFilePre env db f).2.2.2.2)).filter
              (fun c => c.file_path == f.path) =
            (builtItems env db f).map
              (chunkRowOf env f.path (indexFilePre env db f).2.2.2.2) := by
          rw [List.filter_eq_self.mpr]
          · rfl
          · intro a ha
            rw [List.mem_map] at ha
            obtain ⟨q, _, hq⟩ := ha
            subst hq
            simp [chunkRowOf]
        rw [h1, h2, List.nil_append]
      · intro hready q hq hne
        rw [hready] at heq
        rw [if_pos rfl] at heq
        obtain ⟨t0, ht0⟩ :=
          Option.isSome_iff_exists.mp (indexFilePre_ready_vec env db f hready)
        rw [ht0] at heq
        have hvec := txnInsertGo_ok_vec env f.path _ _ _ _ _ heq
        refine ⟨_, hvec, ?_⟩
        apply List.mem_append_right
        rw [List.mem_map]
        refine ⟨q, ?_, rfl⟩
        rw [List.mem_filter]
        exact ⟨hq, hne⟩
  · intro d hd
    simp only [indexFile] at hd
    split at hd
    · injection hd with hd
      subst hd
      exact ⟨(indexFilePre_chunks_files env db f).1,
        (indexFilePre_chunks_files env db f).2⟩
    · exact absurd hd (by simp)

/-- C2: counterexample to the original claim. With stored dims 2 and a
one-row vector table, a provider that returns ragged embeddings (lengths 3
and 2) makes the transaction of `indexFile` fail, yet the call leaves the
vector table dropped and recreated (dims 2 became 3, the old row is gone)
while the chunk and file tables are unchanged: the error path is not free of
visible writes. -/
theorem C2_counterexample :
    (match indexFile c2env c2db c2file with
      | .error _ => true
      | .ok _ => false) = true ∧
    (exVal (indexFile c2env c2db c2file)).chunks = c2db.chunks ∧
    (exVal (indexFile c2env c2db c2file)).files = c2db.files ∧
    vecShape (exVal (indexFile c2env c2db c2file)) ≠ vecShape c2db := by
  refine ⟨rfl, rfl, rfl, ?_⟩
  have h1 : vecShape (exVal (indexFile c2env c2db c2file)) = some (3, []) := rfl
  have h2 : vecShape c2db = some (2, ["a0"]) := rfl
  rw [h1, h2]
  decide

theorem C2_txn_atomicity_witness :
    (exVal (indexFile c2wEnv c2db c2file)).files.find?
        (fun r => r.path == c2file.path) =
      some ⟨c2file.path, c2wEnv.hashFile c2file.content, c2file.mtime,
        c2file.size⟩ :=
  ((C2_txn_atomicity c2wEnv c2db c2file).1
    (exVal (indexFile c2wEnv c2db c2file)) rfl).1

theorem getLast?_cons_or {α : Type} (x : α) (xs : List α) :
    (x :: xs).getLast? = xs.getLast?.or (some x) := by
  induction xs generalizing x with
  | nil => simp
  | cons y ys ih =>
    rw [List.getLast?_cons_cons, ih y, Option.or_assoc]
    rfl

theorem getLast?_filter_sat {p : FileRow → Bool} {l : List FileRow} {y : FileRow}
    (h : (l.filter p).getLast? = some y) : p y = true :=
  (List.mem_filter.mp
    (List.mem_of_mem_getLast? (show y ∈ (l.filter p).getLast? by
      rw [h]; exact Option.mem_some_iff.mpr rfl))).2

theorem existingGetAux (p : String) :
    ∀ (rows : List FileRow) (acc : Option FileRow),
      rows.foldl (fun a r => if r.path == p then some r else a) acc =
        ((rows.filter fun r => r.path == p).getLast?).or acc := by
  intro rows
  induction rows with
  | nil => intro acc; simp
  | cons r rest ih =>
    intro acc
    rw [List.foldl_cons, ih]
    simp only [List.filter_cons]
    by_cases hr : (r.path == p) = true
    · rw [if_pos hr, if_pos hr, getLast?_cons_or, Option.or_assoc]
      rfl
    · rw [if_neg hr, if_neg hr]

theorem existingGet_eq (rows : List FileRow) (p : String) :
    existingGet rows p = (rows.filter fun r => r.path == p).getLast? := by
  rw [existingGet, existingGetAux, Option.or_none]

theorem existingGet_upsert_self (files : List FileRow) (row : FileRow) :
    existingGet (upsertFileRow files row) row.path = some row := by
  rw [upsertFileRow]
  by_cases h : (files.any fun r => r.path == row.path) = true
  · rw [if_pos h, existingGet_eq, List.filter_map]
    have hfe : ((fun r => r.path == row.path) ∘
        fun r => if (r.path == row.path) = true then row else r) =
        fun r : FileRow => r.path == row.path := by
      funext r
      by_cases hr : r.path = row.path
      · simp [hr]
      · simp [hr]
    rw [hfe, List.getLast?_map]
    obtain ⟨x, hx, hpx⟩ := List.any_eq_true.mp h
    have hne : (files.filter fun r => r.path == row.path) ≠ [] :=
      List.ne_nil_of_mem (List.mem_filter.mpr ⟨hx, hpx⟩)
    obtain ⟨y, hy⟩ : ∃ y,
        (files.filter fun r => r.path == row.path).getLast? = some y := by
      cases hl : (files.filter fun r => r.path == row.path).getLast? with
      | none => exact absurd (List.getLast?_eq_none_iff.mp hl) hne
      | some y => exact ⟨y, rfl⟩
    have hyp : (y.path == row.path) = true := getLast?_filter_sat hy
    rw [hy, Option.map_some', if_pos hyp]
  · rw [if_neg h, existingGet_eq, List.filter_append]
    simp only [List.filter_cons, List.filter_nil]
    rw [if_pos (by simp), List.getLast?_concat]

theorem existingGet_upsert_other (files : List FileRow) (row : FileRow)
    (q : String) (hq : q ≠ row.path) :
    existingGet (upsertFileRow files row) q = existingGet files q := by
  rw [upsertFileRow]
  by_cases h : (files.any fun r => r.path == row.path) = true
  · rw [if_pos h, existingGet_eq, existingGet_eq, List.filter_map]
    have hfe : ((fun r => r.path == q) ∘
        fun r => if (r.path == row.path) = true then row else r) =
        fun r : FileRow => r.path == q := by
      funext r
      by_cases hr : r.path = row.path
      · have h1 : ¬ row.path = q := Ne.symm hq
        simp [hr, h1]
      · simp [hr]
    rw [hfe, List.getLast?_map]
    cases hl : (files.filter fun r => r.path == q).getLast? with
    | none => rfl
    | some y =>
      have hyq : (y.path == q) = true := getLast?_filter_sat hl
      have hyr : ¬ y.path = row.path := by
        rw [beq_iff_eq.mp hyq]
        exact hq
      simp [hyr]
  · rw [if_neg h, existingGet_eq, existingGet_eq, List.filter_append]
    simp only [List.filter_cons, List.filter_nil]
    rw [if_neg (by simp [beq_eq_false_iff_ne]; exact Ne.symm hq), List.append_nil]

theorem upsertFileRow_paths (files : List FileRow) (row : FileRow) :
    ∀ r ∈ upsertFileRow files row,
      (∃ p ∈ files, p.path = r.path) ∨ r.path = row.path := by
  intro r hr
  rw [upsertFileRow] at hr
  by_cases h : (files.any fun x => x.path == row.path) = true
  · rw [if_pos h] at hr
    obtain ⟨e, he, heq⟩ := List.mem_map.mp hr
    by_cases hep : (e.path == row.path) = true
    · rw [if_pos hep] at heq
      right
      rw [← heq]
    · rw [if_neg hep] at heq
      exact Or.inl ⟨e, he, by rw [heq]⟩
  · rw [if_neg h] at hr
    rcases List.mem_append.mp hr with hmem | hmem
    · exact Or.inl ⟨r, hmem, rfl⟩
    · right
      rw [List.mem_cons] at hmem
      rcases hmem with rfl | hmem
      · rfl
      · exact absurd hmem (List.not_mem_nil r)

theorem touchFileRow_path_pres (p : String) (m s : Int) (q : FileRow) :
    (if (q.path == p) = true then { q with mtime := m, size := s } else q).path =
      q.path := by
  by_cases hq : (q.path == p) = true
  · rw [if_pos hq]
  · rw [if_neg hq]

theorem existingGet_touch_self (files : List FileRow) (p : String) (m s : Int) :
    existingGet (touchFileRow files p m s) p =
      (existingGet files p).map fun r => { r with mtime := m, size := s } := by
  rw [touchFileRow, existingGet_eq, existingGet_eq, List.filter_map]
  have hfe : ((fun r => r.path == p) ∘
      fun q => if (q.path == p) = true then { q with mtime := m, size := s } else q) =
      fun r : FileRow => r.path == p := by
    funext r
    simp only [Function.comp_apply]
    rw [touchFileRow_path_pres]
  rw [hfe, List.getLast?_map]
  cases hl : (files.filter fun r => r.path == p).getLast? with
  | none => rfl
  | some y =>
    have hyp : (y.path == p) = true := getLast?_filter_sat hl
    rw [Option.map_some', Option.map_some', if_pos hyp]

theorem existingGet_touch_other (files : List FileRow) (p : String) (m s : Int)
    (q : String) (hq : q ≠ p) :
    existingGet (touchFileRow files p m s) q = existingGet files q := by
  rw [touchFileRow, existingGet_eq, existingGet_eq, List.filter_map]
  have hfe : ((fun r => r.path == q) ∘
      fun x => if (x.path == p) = true then { x with mtime := m, size := s } else x) =
      fun r : FileRow => r.path == q := by
    funext r
    simp only [Function.comp_apply]
    rw [touchFileRow_path_pres]
  rw [hfe, List.getLast?_map]
  cases hl : (files.filter fun r => r.path == q).getLast? with
  | none => rfl
  | some y =>
    have hyq : (y.path == q) = true := getLast?_filter_sat hl
    have hyp : (y.path == p) = false := by
      rw [beq_eq_false_iff_ne, beq_iff_eq.mp hyq]
      exact hq
    rw [Option.map_some', if_neg (by rw [hyp]; exact Bool.false_ne_true)]

theorem touchFileRow_paths (files : List FileRow) (p : String) (m s : Int) :
    ∀ r ∈ touchFileRow files p m s, ∃ q ∈ files, q.path = r.path := by
  intro r hr
  obtain ⟨e, he, heq⟩ := List.mem_map.mp hr
  exact ⟨e, he, by rw [← heq, touchFileRow_path_pres]⟩

theorem existingGet_erase_other (files : List FileRow) (p q : String)
    (hq : q ≠ p) :
    existingGet (files.filter fun r => r.path != p) q = existingGet files q := by
  rw [existingGet_eq, existingGet_eq, List.filter_filter]
  apply congrArg
  apply List.filter_congr
  intro x _
  by_cases hx : (x.path == q) = true
  · have hxp : (x.path != p) = true := by
      rw [bne_iff_ne, beq_iff_eq.mp hx]
      exact hq
    rw [hx, hxp]
    rfl
  · rw [Bool.eq_false_iff.mpr hx]
    rfl

theorem ensureVectorReady_chunkMeta (env : SyncEnv) (db : Db) (m : String)
    (n : Nat) :
    chunkMeta (ensureVectorReady env db m n).1.meta = chunkMeta db.meta := by
  simp only [ensureVectorReady]
  split
  · rfl
  · split
    · rfl
    · rfl

theorem indexFilePre_chunkMeta (env : SyncEnv) (db : Db) (f : DiskFile) :
    chunkMeta (indexFilePre env db f).1.meta = chunkMeta db.meta := by
  unfold indexFilePre
  cases hp : env.provider with
  | none => rfl
  | some p => exact ensureVectorReady_chunkMeta env _ p.modelPath _

theorem indexFile_ok_files (env : SyncEnv) (db : Db) (f : DiskFile) (d : Db)
    (h : indexFile env db f = .ok d) :
    d.files = upsertFileRow db.files
      ⟨f.path, env.hashFile f.content, f.mtime, f.size⟩ := by
  simp only [indexFile] at h
  split at h
  · exact absurd h (by simp)
  · injection h with h
    subst h
    show upsertFileRow (indexFilePre env db f).1.files _ = _
    rw [(indexFilePre_chunks_files env db f).2]

theorem indexFile_ok_chunkMeta (env : SyncEnv) (db : Db) (f : DiskFile) (d : Db)
    (h : indexFile env db f = .ok d) :
    chunkMeta d.meta = chunkMeta db.meta := by
  simp only [indexFile] at h
  split at h
  · exact absurd h (by simp)
  · injection h with h
    subst h
    show chunkMeta (indexFilePre env db f).1.meta = chunkMeta db.meta
    exact indexFilePre_chunkMeta env db f

theorem indexFile_error_state (env : SyncEnv) (db : Db) (f : DiskFile) (d : Db)
    (h : indexFile env db f = .error d) :
    d.files = db.files ∧ d.chunks = db.chunks ∧
      chunkMeta d.meta = chunkMeta db.meta := by
  simp only [indexFile] at h
  split at h
  · injection h with h
    subst h
    exact ⟨(indexFilePre_chunks_files env db f).2,
      (indexFilePre_chunks_files env db f).1, indexFilePre_chunkMeta env db f⟩
  · exact absurd h (by simp)

theorem syncFileStep_good (env : SyncEnv) (rows : List FileRow) (db db1 : Db)
    (f : DiskFile)
    (hpre : existingGet db.files f.path = existingGet rows f.path)
    (h : syncFileStep env rows db f = .ok db1) :
    ∃ r, existingGet db1.files f.path = some r ∧
      r.mtime = f.mtime ∧ r.size = f.size := by
  rw [syncFileStep] at h
  split at h
  · rename_i hrec
    have := indexFile_ok_files env db f db1 h
    refine ⟨⟨f.path, env.hashFile f.content, f.mtime, f.size⟩, ?_, rfl, rfl⟩
    rw [this]
    exact existingGet_upsert_self db.files _
  · rename_i r hrec
    split at h
    · split at h
      · have := indexFile_ok_files env db f db1 h
        refine ⟨⟨f.path, env.hashFile f.content, f.mtime, f.size⟩, ?_, rfl, rfl⟩
        rw [this]
        exact existingGet_upsert_self db.files _
      · injection h with h
        subst h
        show ∃ x, existingGet (touchFileRow db.files f.path f.mtime f.size)
          f.path = some x ∧ x.mtime = f.mtime ∧ x.size = f.size
        rw [existingGet_touch_self, hpre, hrec, Option.map_some']
        exact ⟨_, rfl, rfl, rfl⟩
    · rename_i hstat
      injection h with h
      subst h
      refine ⟨r, by rw [hpre, hrec], ?_, ?_⟩
      · have := (Bool.or_eq_false_iff.mp (Bool.eq_false_iff.mpr hstat)).1
        exact bne_eq_false_iff_eq.mp this
      · have := (Bool.or_eq_false_iff.mp (Bool.eq_false_iff.mpr hstat)).2
        exact bne_eq_false_iff_eq.mp this

theorem syncFileStep_local (env : SyncEnv) (rows : List FileRow) (db db1 : Db)
    (f : DiskFile) (h : syncFileStep env rows db f = .ok db1)
    (q : String) (hq : q ≠ f.path) :
    existingGet db1.files q = existingGet db.files q := by
  rw [syncFileStep] at h
  split at h
  · rw [indexFile_ok_files env db f db1 h]
    exact existingGet_upsert_other db.files _ q hq
  · split at h
    · split at h
      · rw [indexFile_ok_files env db f db1 h]
        exact existingGet_upsert_other db.files _ q hq
      · injection h with h
        subst h
        show existingGet (touchFileRow db.files f.path f.mtime f.size) q = _
        exact existingGet_touch_other db.files f.path f.mtime f.size q hq
    · injection h with h
      subst h
      rfl

theorem syncFileStep_paths (env : SyncEnv) (rows : List FileRow) (db db1 : Db)
    (f : DiskFile) (h : syncFileStep env rows db f = .ok db1) :
    ∀ r ∈ db1.files, (∃ p ∈ db.files, p.path = r.path) ∨ r.path = f.path := by
  rw [syncFileStep] at h
  split at h
  · rw [indexFile_ok_files env db f db1 h]
    exact upsertFileRow_paths db.files _
  · split at h
    · split at h
      · rw [indexFile_ok_files env db f db1 h]
        exact upsertFileRow_paths db.files _
      · injection h with h
        subst h
        intro r hr
        obtain ⟨e, he, hee⟩ := touchFileRow_paths db.files f.path f.mtime f.size r hr
        exact Or.inl ⟨e, he, hee⟩
    · injection h with h
      subst h
      intro r hr
      exact Or.inl ⟨r, hr, rfl⟩

theorem syncFileStep_chunkMeta (env : SyncEnv) (rows : List FileRow)
    (db db1 : Db) (f : DiskFile) (h : syncFileStep env rows db f = .ok db1) :
    chunkMeta db1.meta = chunkMeta db.meta := by
  rw [syncFileStep] at h
  split at h
  · exact indexFile_ok_chunkMeta env db f db1 h
  · split at h
    · split at h
      · exact indexFile_ok_chunkMeta env db f db1 h
      · injection h with h
        subst h
        rfl
    · injection h with h
      subst h
      rfl

theorem syncFilesGo_good (env : SyncEnv) (rows : List FileRow) :
    ∀ (ds : List DiskFile) (db db2 : Db),
      (ds.map DiskFile.path).Nodup →
      (∀ f ∈ ds, existingGet db.files f.path = existingGet rows f.path) →
      syncFilesGo env rows ds db = .ok db2 →
      (∀ f ∈ ds, ∃ r, existingGet db2.files f.path = some r ∧
          r.mtime = f.mtime ∧ r.size = f.size) ∧
      (∀ q, q ∉ ds.map DiskFile.path →
        existingGet db2.files q = existingGet db.files q) := by
  intro ds
  induction ds with
  | nil =>
    intro db db2 _ _ h
    injection h with h
    subst h
    exact ⟨fun f hf => absurd hf (List.not_mem_nil f), fun q _ => rfl⟩
  | cons f rest ih =>
    intro db db2 hnd hpre h
    rw [syncFilesGo] at h
    split at h
    · rename_i dbx hstep
      rw [List.map_cons, List.nodup_cons] at hnd
      have hfr : f.path ∉ rest.map DiskFile.path := hnd.1
      have hpre1 : ∀ g ∈ rest, existingGet dbx.files g.path = existingGet rows g.path := by
        intro g hg
        have hgf : g.path ≠ f.path := by
          intro hc
          exact hfr (hc ▸ List.mem_map.mpr ⟨g, hg, rfl⟩)
        rw [syncFileStep_local env rows db dbx f hstep g.path hgf]
        exact hpre g (List.mem_cons.mpr (Or.inr hg))
      obtain ⟨hstatR, hlocR⟩ := ih dbx db2 hnd.2 hpre1 h
      constructor
      · intro g hg
        rcases List.mem_cons.mp hg with rfl | hg
        · rw [hlocR g.path hfr]
          exact syncFileStep_good env rows db dbx g
            (hpre g (List.mem_cons.mpr (Or.inl rfl))) hstep
        · exact hstatR g hg
      · intro q hq
        rw [List.map_cons, List.mem_cons] at hq
        push_neg at hq
        rw [hlocR q hq.2]
        exact syncFileStep_local env rows db dbx f hstep q hq.1
    · exact absurd h (by simp)

theorem syncFilesGo_paths (env : SyncEnv) (rows : List FileRow) :
    ∀ (ds : List DiskFile) (db db2 : Db),
      syncFilesGo env rows ds db = .ok db2 →
      ∀ r ∈ db2.files,
        (∃ q ∈ db.files, q.path = r.path) ∨ r.path ∈ ds.map DiskFile.path := by
  intro ds
  induction ds with
  | nil =>
    intro db db2 h r hr
    injection h with h
    subst h
    exact Or.inl ⟨r, hr, rfl⟩
  | cons f rest ih =>
    intro db db2 h r hr
    rw [syncFilesGo] at h
    split at h
    · rename_i dbx hstep
      rcases ih dbx db2 h r hr with ⟨q, hq, hqr⟩ | hmem
      · rcases syncFileStep_paths env rows db dbx f hstep q hq with ⟨p, hp, hpq⟩ | hqf
        · exact Or.inl ⟨p, hp, by rw [hpq, hqr]⟩
        · right
          rw [List.map_cons, List.mem_cons]
          exact Or.inl (by rw [← hqr, hqf])
      · right
        rw [List.map_cons, List.mem_cons]
        exact Or.inr hmem
    · exact absurd h (by simp)

theorem syncFilesGo_chunkMeta (env : SyncEnv) (rows : List FileRow) :
    ∀ (ds : List DiskFile) (db db2 : Db),
      syncFilesGo env rows ds db = .ok db2 →
      chunkMeta db2.meta = chunkMeta db.meta := by
  intro ds
  induction ds with
  | nil =>
    intro db db2 h
    injection h with h
    subst h
    rfl
  | cons f rest ih =>
    intro db db2 h
    rw [syncFilesGo] at h
    split at h
    · rename_i dbx hstep
      rw [ih dbx db2 h]
      exact syncFileStep_chunkMeta env rows db dbx f hstep
    · exact absurd h (by simp)

theorem indexAllGo_eq_syncFilesGo (env : SyncEnv) :
    ∀ (ds : List DiskFile) (db : Db),
      indexAllGo env ds db = syncFilesGo env [] ds db := by
  intro ds
  induction ds with
  | nil => intro db; rfl
  | cons f rest ih =>
    intro db
    rw [indexAllGo, syncFilesGo]
    show (match indexFile env db f with
      | .ok d => indexAllGo env rest d
      | .error d => .error d) =
      match indexFile env db f with
      | .ok d => syncFilesGo env [] rest d
      | .error d => .error d
    cases indexFile env db f with
    | ok d => exact ih d
    | error d => rfl

theorem deleteFileEverywhere_files (vr : Bool) (db : Db) (p : String) :
    (deleteFileEverywhere vr db p).files = db.files.filter fun r => r.path != p := rfl

theorem deleteFileEverywhere_meta (vr : Bool) (db : Db) (p : String) :
    (deleteFileEverywhere vr db p).meta = db.meta := rfl

theorem deletePass_meta (env : SyncEnv) (vr : Bool) :
    ∀ (rows : List FileRow) (db : Db),
      (deletePass env vr rows db).meta = db.meta := by
  intro rows
  induction rows with
  | nil => intro db; rfl
  | cons r rest ih =>
    intro db
    rw [deletePass, List.foldl_cons]
    by_cases hc : ((env.disk.map DiskFile.path).contains r.path) = true
    · rw [if_pos hc]
      exact ih db
    · rw [if_neg hc]
      rw [show List.foldl _ (deleteFileEverywhere vr db r.path) rest =
        deletePass env vr rest (deleteFileEverywhere vr db r.path) from rfl]
      rw [ih (deleteFileEverywhere vr db r.path)]
      rfl

theorem deletePass_local (env : SyncEnv) (vr : Bool) :
    ∀ (rows : List FileRow) (db : Db) (q : String),
      q ∈ env.disk.map DiskFile.path →
      existingGet (deletePass env vr rows db).files q = existingGet db.files q := by
  intro rows
  induction rows with
  | nil => intro db q _; rfl
  | cons r rest ih =>
    intro db q hq
    rw [deletePass, List.foldl_cons]
    by_cases hc : ((env.disk.map DiskFile.path).contains r.path) = true
    · rw [if_pos hc]
      exact ih db q hq
    · rw [if_neg hc]
      rw [show List.foldl _ (deleteFileEverywhere vr db r.path) rest =
        deletePass env vr rest (deleteFileEverywhere vr db r.path) from rfl]
      rw [ih (deleteFileEverywhere vr db r.path) q hq,
        deleteFileEverywhere_files]
      have hqr : q ≠ r.path := by
        intro hceq
        exact hc (List.elem_iff.mpr (hceq ▸ hq))
      exact existingGet_erase_other db.files r.path q hqr

theorem deletePass_paths (env : SyncEnv) (vr : Bool) :
    ∀ (rows : List FileRow) (db : Db),
      (∀ r ∈ db.files, r.path ∈ env.disk.map DiskFile.path ∨
        ∃ r0 ∈ rows, r0.path = r.path) →
      ∀ r ∈ (deletePass env vr rows db).files,
        r.path ∈ env.disk.map DiskFile.path := by
  intro rows
  induction rows with
  | nil =>
    intro db hdb r hr
    rcases hdb r hr with hm | ⟨r0, hr0, _⟩
    · exact hm
    · exact absurd hr0 (List.not_mem_nil r0)
  | cons r0 rest ih =>
    intro db hdb
    rw [deletePass, List.foldl_cons]
    by_cases hc : ((env.disk.map DiskFile.path).contains r0.path) = true
    · rw [if_pos hc]
      apply ih db
      intro r hr
      rcases hdb r hr with hm | ⟨r1, hr1, hp1⟩
      · exact Or.inl hm
      · rcases List.mem_cons.mp hr1 with rfl | hr1
        · exact Or.inl (hp1 ▸ List.elem_iff.mp hc)
        · exact Or.inr ⟨r1, hr1, hp1⟩
    · rw [if_neg hc]
      rw [show List.foldl _ (deleteFileEverywhere vr db r0.path) rest =
        deletePass env vr rest (deleteFileEverywhere vr db r0.path) from rfl]
      apply ih (deleteFileEverywhere vr db r0.path)
      intro r hr
      rw [deleteFileEverywhere_files] at hr
      obtain ⟨hrdb, hrne⟩ := List.mem_filter.mp hr
      rcases hdb r hrdb with hm | ⟨r1, hr1, hp1⟩
      · exact Or.inl hm
      · rcases List.mem_cons.mp hr1 with rfl | hr1
        · exact absurd hp1.symm (bne_iff_ne.mp hrne)
        · exact Or.inr ⟨r1, hr1, hp1⟩

theorem pruneOrphanedVectors_files (db : Db) :
    (pruneOrphanedVectors db).files = db.files := by
  rw [pruneOrphanedVectors]
  cases db.vec with
  | none => rfl
  | some t => rfl

theorem pruneOrphanedVectors_meta (db : Db) :
    (pruneOrphanedVectors db).meta = db.meta := by
  rw [pruneOrphanedVectors]
  cases db.vec with
  | none => rfl
  | some t => rfl

theorem chunkingMetaMatches_congr (m1 m2 : IndexMeta) (c : ChunkingConfig)
    (h : chunkMeta m1 = chunkMeta m2) :
    chunkingMetaMatches m1 c = chunkingMetaMatches m2 c := by
  simp only [chunkMeta, Prod.mk.injEq] at h
  rw [chunkingMetaMatches, chunkingMetaMatches, h.1, h.2.1, h.2.2.1, h.2.2.2]

theorem chunkingMetaMatches_of_eq (m : IndexMeta) (c : ChunkingConfig)
    (h : chunkMeta m =
      (some c.tokens, some c.overlap, some c.minChars, some c.charsPerToken)) :
    chunkingMetaMatches m c = true := by
  simp only [chunkMeta, Prod.mk.injEq] at h
  rw [chunkingMetaMatches, h.1, h.2.1, h.2.2.1, h.2.2.2]
  simp

theorem reindex_post (env : SyncEnv) (db d : Db)
    (hdisk : (env.disk.map DiskFile.path).Nodup)
    (h : reindexWorkspaceUnlocked env db = .ok d) :
    chunkingMetaMatches d.meta env.chunking = true ∧
    (∀ f ∈ env.disk, ∃ r, existingGet d.files f.path = some r ∧
        r.mtime = f.mtime ∧ r.size = f.size) ∧
    (∀ r ∈ d.files, r.path ∈ env.disk.map DiskFile.path) := by
  have main : ∀ dbS : Db, dbS.files = [] →
      chunkMeta dbS.meta =
        (some env.chunking.tokens, some env.chunking.overlap,
          some env.chunking.minChars, some env.chunking.charsPerToken) →
      indexAllGo env env.disk dbS = .ok d →
      chunkingMetaMatches d.meta env.chunking = true ∧
      (∀ f ∈ env.disk, ∃ r, existingGet d.files f.path = some r ∧
          r.mtime = f.mtime ∧ r.size = f.size) ∧
      (∀ r ∈ d.files, r.path ∈ env.disk.map DiskFile.path) := by
    intro dbS hfiles hmeta hgo
    rw [indexAllGo_eq_syncFilesGo] at hgo
    have hpre : ∀ f ∈ env.disk,
        existingGet dbS.files f.path = existingGet ([] : List FileRow) f.path := by
      intro f _
      rw [hfiles]
    obtain ⟨hstat, _⟩ := syncFilesGo_good env [] env.disk dbS d hdisk hpre hgo
    refine ⟨?_, hstat, ?_⟩
    · apply chunkingMetaMatches_of_eq
      rw [syncFilesGo_chunkMeta env [] env.disk dbS d hgo, hmeta]
    · intro r hr
      rcases syncFilesGo_paths env [] env.disk dbS d hgo r hr with ⟨q, hq, _⟩ | hm
      · rw [hfiles] at hq
        exact absurd hq (List.not_mem_nil q)
      · exact hm
  simp only [reindexWorkspaceUnlocked] at h
  split at h
  · exact main _ rfl (by cases env.provider <;> rfl) h
  · split at h
    · exact main _ rfl (by cases env.provider <;> rfl) h
    · split at h
      · exact absurd h (by simp)
      · exact main _ rfl (by cases env.provider <;> rfl) h

theorem ensureUnlocked_post (env : SyncEnv) (db db1 : Db)
    (hdisk : (env.disk.map DiskFile.path).Nodup)
    (h : ensureIndexUpToDateUnlocked env db = .ok db1) :
    chunkingMetaMatches db1.meta env.chunking = true ∧
    (∀ f ∈ env.disk, ∃ r, existingGet db1.files f.path = some r ∧
        r.mtime = f.mtime ∧ r.size = f.size) ∧
    (∀ r ∈ db1.files, r.path ∈ env.disk.map DiskFile.path) := by
  simp only [ensureIndexUpToDateUnlocked] at h
  by_cases h1 : chunkingMetaMatches db.meta env.chunking = false
  · rw [if_pos h1] at h
    exact reindex_post env db db1 hdisk h
  · rw [if_neg h1] at h
    by_cases h2 : providerModelMismatch db.meta env.provider = true
    · rw [if_pos h2] at h
      exact reindex_post env db db1 hdisk h
    · rw [if_neg h2] at h
      split at h
      · rename_i d2 hsync
        injection h with h
        subst h
        have key : ∀ (vr : Bool) (dbP : Db), dbP.meta = db.meta →
            syncFilesGo env dbP.files env.disk dbP = .ok d2 →
            chunkingMetaMatches (deletePass env vr dbP.files d2).meta
              env.chunking = true ∧
            (∀ f ∈ env.disk, ∃ r,
              existingGet (deletePass env vr dbP.files d2).files f.path = some r ∧
                r.mtime = f.mtime ∧ r.size = f.size) ∧
            (∀ r ∈ (deletePass env vr dbP.files d2).files,
              r.path ∈ env.disk.map DiskFile.path) := by
          intro vr dbP hmetaP hsyncP
          obtain ⟨hstat, _⟩ := syncFilesGo_good env dbP.files env.disk dbP d2
            hdisk (fun f _ => rfl) hsyncP
          refine ⟨?_, ?_, ?_⟩
          · apply Eq.trans (chunkingMetaMatches_congr _ db.meta env.chunking ?_)
            · rw [Bool.not_eq_false] at h1
              exact h1
            · rw [deletePass_meta,
                syncFilesGo_chunkMeta env dbP.files env.disk dbP d2 hsyncP,
                hmetaP]
          · intro f hf
            rw [deletePass_local env vr dbP.files d2 f.path
              (List.mem_map.mpr ⟨f, hf, rfl⟩)]
            exact hstat f hf
          · apply deletePass_paths
            intro r hr
            rcases syncFilesGo_paths env dbP.files env.disk dbP d2 hsyncP r hr with
              ⟨q, hq, hqp⟩ | hm
            · exact Or.inr ⟨q, hq, hqp⟩
            · exact Or.inl hm
        exact key _ _
          (by split; exacts [pruneOrphanedVectors_meta db, rfl]) hsync
      · exact absurd h (by simp)

/-- C1 (amended): after a successful sync whose resulting metadata passes
the model check — automatic with no provider; with a provider it requires
that some non-empty embedding fixed `meta.model` — a second call with the
same inputs is a no-op: `indexNeedsUpdate` is false and the call returns the
database unchanged. -/
theorem C1_second_sync_noop (env : SyncEnv) (db db1 : Db)
    (hdisk : (env.disk.map DiskFile.path).Nodup)
    (hsucc : ensureIndexUpToDate env db = .ok db1)
    (hmodel : providerModelMismatch db1.meta env.provider = false) :
    indexNeedsUpdate env db1 = false ∧
      ensureIndexUpToDate env db1 = .ok db1 := by
  have hneeds : indexNeedsUpdate env db1 = false := by
    rw [ensureIndexUpToDate] at hsucc
    by_cases hn : indexNeedsUpdate env db = true
    · rw [if_pos hn, if_pos hn] at hsucc
      obtain ⟨hmatch, hstat, hpaths⟩ := ensureUnlocked_post env db db1 hdisk hsucc
      have hdrift : (env.disk.any fun f => fileRecordDrifts env db1.files f) = false := by
        rw [List.any_eq_false]
        intro f hf
        obtain ⟨r, hr, hm, hs⟩ := hstat f hf
        simp only [fileRecordDrifts, hr]
        rw [hm, hs]
        simp
      rw [indexNeedsUpdate, if_neg (by simp [hmatch]),
        if_neg (by simp [hmodel]), if_neg (by simp [hdrift]),
        List.any_eq_false]
      intro r hr
      have hc : ((env.disk.map DiskFile.path).contains r.path) = true :=
        List.elem_iff.mpr (hpaths r hr)
      rw [hc]
      simp
    · rw [if_neg hn] at hsucc
      injection hsucc with hsucc
      subst hsucc
      rw [Bool.not_eq_true] at hn
      exact hn
  refine ⟨hneeds, ?_⟩
  rw [ensureIndexUpToDate, if_neg (by simp [hneeds])]

/-- C1: counterexample to the original claim. On a fresh database with an
embedding provider configured and an empty workspace, the first
`ensureIndexUpToDate` call succeeds (it reindexes, writing the chunking
settings) but never writes `meta.model` — `reindexWorkspaceUnlocked` only
clears it and `ensureVectorReady` is never reached with positive dims — so
the second call still reports drift: it is not a no-op. -/
theorem C1_counterexample :
    ensureIndexUpToDate c1env c1db =
      .ok (exVal (ensureIndexUpToDate c1env c1db)) ∧
    indexNeedsUpdate c1env (exVal (ensureIndexUpToDate c1env c1db)) = true :=
  ⟨rfl, rfl⟩

theorem C1_second_sync_noop_witness :
    indexNeedsUpdate c1wEnv (exVal (ensureIndexUpToDate c1wEnv c1db)) = false ∧
    ensureIndexUpToDate c1wEnv (exVal (ensureIndexUpToDate c1wEnv c1db)) =
      .ok (exVal (ensureIndexUpToDate c1wEnv c1db)) :=
  C1_second_sync_noop c1wEnv c1db (exVal (ensureIndexUpToDate c1wEnv c1db))
    (by decide) rfl rfl

end MemCli
